import Mathlib

/-!
Verification of the bReader document-segmentation and chunking pipeline
(`md_to_chunks.py`, `extract_fb2.py`, `metadata_manager.py`).

Strings are modelled as lists of Unicode code points (`List Char`), which
matches Python's `str` semantics for indexing, `len`, slicing and
concatenation.  Python integers are modelled as `Int`.  The sentence
tokenizer (`nltk.sent_tokenize`) and the tree parser (`BeautifulSoup`) are
external collaborators; the tokenizer is a parameter, and the document tree
is an inductive type, as the specification prescribes ("the pipeline
receives a parsed document tree").
-/

namespace BReader

/-- Python strings as lists of code points. -/
abbrev Str := List Char

/-- Code points of a Lean string literal (used to write concrete inputs). -/
def chars (s : String) : Str := s.data

/-- The length of a string, as a Python `int`. -/
def strLen (s : Str) : Int := (s.length : Int)

/-- Python `str.isspace`-style whitespace test for the ASCII whitespace
characters recognised by `str.strip()` / `str.split()` on the texts handled
here. -/
def pyWS (c : Char) : Bool :=
  c = ' ' || c = '\t' || c = '\n' || c = '\r' || c = '\x0b' || c = '\x0c'

/-- A non-whitespace character. -/
def wordChar (c : Char) : Bool := !pyWS c

/-- Python `str.lstrip()`. -/
def lstrip (s : Str) : Str := s.dropWhile (fun c => pyWS c)

/-- Python `str.rstrip()`. -/
def rstrip (s : Str) : Str := (s.reverse.dropWhile (fun c => pyWS c)).reverse

/-- Python `str.strip()`. -/
def pyStrip (s : Str) : Str := rstrip (lstrip s)

/-- Python `sep.join(l)` for a separator string `sep`. -/
def joinL (sep : Str) : List Str → Str
  | [] => []
  | [s] => s
  | s :: t :: rest => s ++ sep ++ joinL sep (t :: rest)

/-- Python `s.split(c)` for a single-character separator `c` (keeps empty
pieces, exactly like `str.split` with an explicit separator). -/
def splitOnChar (sep : Char) : Str → List Str
  | [] => [[]]
  | c :: rest =>
    let r := splitOnChar sep rest
    if c = sep then [] :: r
    else
      match r with
      | h :: t => (c :: h) :: t
      | [] => [[c]]

/-- Emit a pending run of `run` newlines, collapsing runs of three or more
to exactly two. -/
def emitNL (run : Nat) : Str :=
  if 3 ≤ run then ['\n', '\n'] else List.replicate run '\n'

/-- Scanner for `collapseNL`: `run` is the number of newlines read but not
yet emitted. -/
def collapseNLGo : Nat → Str → Str
  | run, [] => emitNL run
  | run, c :: rest =>
    if c = '\n' then collapseNLGo (run + 1) rest
    else emitNL run ++ c :: collapseNLGo 0 rest

/-- `re.sub(r'\n{3,}', '\n\n', text)`: collapse every run of three or more
newlines to exactly two. -/
def collapseNL (s : Str) : Str := collapseNLGo 0 s

/-- The single up-front whitespace normalization of
`split_markdown_into_chunks` (`md_to_chunks.py` lines 90-91). -/
def normalize (s : Str) : Str := pyStrip (collapseNL s)

/-! ## The chunker: `split_markdown_into_chunks` (`md_to_chunks.py` 87-150)

The loop state carries the fields of the Python locals.  The `seeds` field
is a ghost field recording, at every chunk boundary, the text that seeds the
next chunk together with the number of sentences consumed so far; the
algorithm never reads it. -/
/-- A produced chunk: `(text, start, end)` as in the Python return value. -/
abbrev Chunk := Str × Int × Int

structure MDState where
  chunks : List Chunk
  current : List Str
  curLen : Int
  startPos : Int
  seeds : List (Str × Nat)
  deriving Repr, DecidableEq

def mdInit : MDState := ⟨[], [], 0, 0, []⟩

/-- The backward overlap-collection loop (`md_to_chunks.py` 115-123):
`rev` is the current chunk reversed, `acc`/`accLen` are `overlap_text` /
`overlap_len`. -/
def collectGo (ov : Int) : List Str → Str → Int → Str × Int
  | [], acc, accLen => (acc, accLen)
  | s :: rest, acc, accLen =>
    if accLen < ov then collectGo ov rest (s ++ ' ' :: acc) (accLen + strLen s + 1)
    else (acc, accLen)

/-- One iteration of the sentence loop (`md_to_chunks.py` 102-134), for the
sentence at position `consumed`. -/
def mdStep (maxCS ov : Int) (consumed : Nat) (st : MDState) (sentence : Str) : MDState :=
  let sLen := strLen sentence
  let st' :=
    if maxCS < st.curLen + sLen + 1 ∧ st.current ≠ [] then
      let chunkText := joinL [' '] st.current
      let endPos := st.startPos + strLen chunkText
      let ovRes := collectGo ov st.current.reverse [] 0
      let newCur := ((splitOnChar ' ' ovRes.1).map pyStrip).filter (fun w => w ≠ [])
      let newLen := strLen (pyStrip ovRes.1)
      { chunks := st.chunks ++ [(chunkText, st.startPos, endPos)]
        current := newCur
        curLen := newLen
        startPos := endPos - newLen
        seeds := st.seeds ++ [(joinL [' '] newCur, consumed)] }
    else st
  { st' with current := st'.current ++ [sentence], curLen := st'.curLen + sLen + 1 }

/-- The sentence loop (`md_to_chunks.py` 101-134). -/
def mdLoop (maxCS ov : Int) : Nat → MDState → List Str → MDState
  | _, st, [] => st
  | i, st, s :: rest => mdLoop maxCS ov (i + 1) (mdStep maxCS ov i st s) rest

/-- The final state of the sentence loop on `sents`. -/
def mdRun (sents : List Str) (maxCS ov : Int) : MDState :=
  mdLoop maxCS ov 0 mdInit sents

/-- The chunk list before the small-chunk filter, including the final flush
(`md_to_chunks.py` 136-140). -/
def rawChunks (sents : List Str) (maxCS ov : Int) : List Chunk :=
  let st := mdRun sents maxCS ov
  if st.current ≠ [] then
    let chunkText := joinL [' '] st.current
    st.chunks ++ [(chunkText, st.startPos, st.startPos + strLen chunkText)]
  else st.chunks

/-- The boundary seeds of the run (ghost observation used by claim C3). -/
def mdSeeds (sents : List Str) (maxCS ov : Int) : List (Str × Nat) :=
  (mdRun sents maxCS ov).seeds

/-- One step of the small-chunk post-pass (`md_to_chunks.py` 142-150). -/
def filterStep (minCS : Int) (acc : List Chunk) (c : Chunk) : List Chunk :=
  if minCS ≤ strLen c.1 ∨ acc = [] then acc ++ [c]
  else
    match acc.getLast? with
    | some prev => acc.dropLast ++ [(prev.1 ++ ' ' :: c.1, prev.2.1, c.2.2)]
    | none => acc ++ [c]

def filterChunks (minCS : Int) (l : List Chunk) : List Chunk :=
  l.foldl (filterStep minCS) []

/-- Chunking a sentence list: the whole of `split_markdown_into_chunks`
after sentence tokenization (`md_to_chunks.py` 96-150). -/
def splitSentences (sents : List Str) (minCS maxCS ov : Int) : List Chunk :=
  filterChunks minCS (rawChunks sents maxCS ov)

/-- `split_markdown_into_chunks` with the sentence tokenizer (an external
collaborator, `nltk.sent_tokenize`) passed as a parameter `tok`
(`md_to_chunks.py` 87-150). -/
def split_markdown_into_chunks (tok : Str → List Str) (mdContent : Str)
    (minCS maxCS ov : Int) : List Chunk :=
  splitSentences (tok (normalize mdContent)) minCS maxCS ov

/-! ### The sentence-tokenizer contract

`nltk.sent_tokenize` returns the sentences of the text in order: the text is
the sentences interleaved with nonempty whitespace separators, and each
sentence neither starts nor ends with whitespace. -/
/-- Interleave sentences with the separators between them. -/
def glue : List Str → List Str → Str
  | [], _ => []
  | [s], _ => s
  | s :: t :: rest, [] => s ++ glue (t :: rest) []
  | s :: t :: rest, w :: ws => s ++ w ++ glue (t :: rest) ws

def sepOK (w : Str) : Bool := w ≠ [] && w.all (fun c => pyWS c)

def sentOK (s : Str) : Bool :=
  s ≠ [] && wordChar (s.headD ' ') && wordChar (s.getLastD ' ')

/-- `sents` is a plausible sentence tokenization of `text`. -/
def IsTokenization (text : Str) (sents : List Str) : Prop :=
  (sents = [] ∧ text = []) ∨
    ∃ seps : List Str, seps.length + 1 = sents.length ∧
      (∀ w ∈ seps, sepOK w = true) ∧ (∀ s ∈ sents, sentOK s = true) ∧
      text = glue sents seps

/-! ### Spec-side observations about chunk lists -/
/-- Concatenation of the chunks with each chunk's overlap removed: of every
chunk but the last, keep only the prefix that does not overlap the next
chunk (the spec's "taking only the non-overlapping prefix of each"). -/
def reconstructChunks : List Chunk → Str
  | [] => []
  | [c] => c.1
  | c :: c' :: rest => c.1.take (c'.2.1 - c.2.1).toNat ++ reconstructChunks (c' :: rest)

/-- Offset `x` lies in the `[start, end)` span of some chunk of `cs`. -/
def coveredBy (cs : List Chunk) (x : Int) : Prop :=
  ∃ c ∈ cs, c.2.1 ≤ x ∧ x < c.2.2

instance (cs : List Chunk) (x : Int) : Decidable (coveredBy cs x) := by
  unfold coveredBy; infer_instance

/-! ## The section splitter: `split_long_section_by_paragraphs`
(`extract_fb2.py` 136-192) -/
/-- Scanner for `splitPP`: split at every non-overlapping `"\n\n"`,
left to right (Python `content.split('\n\n')`). -/
def splitPPGo : Str → Str → List Str
  | acc, '\n' :: '\n' :: rest => acc.reverse :: splitPPGo [] rest
  | acc, c :: rest => splitPPGo (c :: acc) rest
  | acc, [] => [acc.reverse]

/-- Python `content.split('\n\n')`. -/
def splitPP (s : Str) : List Str := splitPPGo [] s

/-- Python `'\n\n'.join(l)`. -/
def joinPP (l : List Str) : Str := joinL ['\n', '\n'] l

/-- Part titles: Python `f"{title} - часть {part_num}"`. -/
def partTitle (title : Str) (n : Int) : Str :=
  title ++ chars " - часть " ++ chars (toString n)

structure SLState where
  parts : List (Str × Str)
  currentPart : List Str
  currentSize : Int
  partNum : Int
  deriving Repr, DecidableEq

/-- One iteration of the paragraph loop (`extract_fb2.py` 163-180);
`paragraph_size` is `len(p) + 2` (the two joining newlines). -/
def slStep (title : Str) (target : Int) (st : SLState) (p : Str) : SLState :=
  if target < st.currentSize + (strLen p + 2) ∧ st.currentPart ≠ [] then
    { parts := st.parts ++ [(partTitle title st.partNum, joinPP st.currentPart)]
      currentPart := [p]
      currentSize := strLen p
      partNum := st.partNum + 1 }
  else
    { st with currentPart := st.currentPart ++ [p],
              currentSize := st.currentSize + (strLen p + 2) }

/-- `split_long_section_by_paragraphs(content, title, max_size)`
(`extract_fb2.py` 136-192).  Python `//` is floor division, `Int.fdiv`
(`max_size = 0` would raise `ZeroDivisionError` in Python; every theorem
below assumes a positive threshold). -/
def split_long_section_by_paragraphs (content title : Str) (maxSize : Int) :
    List (Str × Str) :=
  if strLen content ≤ maxSize then [(title, content)]
  else
    let paragraphs := splitPP content
    let totalChars := strLen content
    let numParts := Int.fdiv (totalChars + maxSize - 1) maxSize
    let targetSize := Int.fdiv totalChars numParts
    let st := paragraphs.foldl (slStep title targetSize) ⟨[], [], 0, 1⟩
    if st.currentPart ≠ [] then
      st.parts ++ [(partTitle title st.partNum, joinPP st.currentPart)]
    else st.parts

/-- The same loop observed at the level of paragraph groups (used to state
that no paragraph is ever split): group boundaries of the run. -/
def slGroupStep (target : Int) (st : List (List Str) × List Str × Int)
    (p : Str) : List (List Str) × List Str × Int :=
  if target < st.2.2 + (strLen p + 2) ∧ st.2.1 ≠ [] then
    (st.1 ++ [st.2.1], [p], strLen p)
  else (st.1, st.2.1 ++ [p], st.2.2 + (strLen p + 2))

/-- The consecutive groups of paragraphs that make up the parts of
`split_long_section_by_paragraphs` when `len(content) > max_size`. -/
def slGroups (content : Str) (maxSize : Int) : List (List Str) :=
  let paragraphs := splitPP content
  let totalChars := strLen content
  let numParts := Int.fdiv (totalChars + maxSize - 1) maxSize
  let targetSize := Int.fdiv totalChars numParts
  let st := paragraphs.foldl (slGroupStep targetSize) ([], [], 0)
  if st.2.1 ≠ [] then st.1 ++ [st.2.1] else st.1

/-! ## The metadata store: `ParseResultCollector` (`metadata_manager.py`)

The backing file is modelled at the JSON level: it is missing, not valid
JSON, or holds a JSON value.  (`json.load` on a file that exists and parses
yields a JSON value; `FileNotFoundError` and `json.JSONDecodeError` are the
two exceptions the code catches.)  JSON objects are association lists
without duplicate keys, preserving insertion order like Python dicts. -/
inductive JVal where
  | null : JVal
  | bool : Bool → JVal
  | num : Int → JVal
  | str : Str → JVal
  | arr : List JVal → JVal
  | obj : List (Str × JVal) → JVal

namespace JVal

/-- Python `key in dict` / `dict[key]` on an insertion-ordered dict. -/
def lookupKey (l : List (Str × JVal)) (k : Str) : Option JVal :=
  match l with
  | [] => none
  | (k', v) :: rest => if k' = k then some v else lookupKey rest k

/-- Python `dict[key] = value`: replace in place if present, else append. -/
def setKey (l : List (Str × JVal)) (k : Str) (v : JVal) : List (Str × JVal) :=
  match l with
  | [] => [(k, v)]
  | (k', v') :: rest => if k' = k then (k, v) :: rest else (k', v') :: setKey rest k v

end JVal

/-- State of the backing metadata file. -/
inductive FileState where
  | missing : FileState
  | invalidJson : FileState
  | validJson : JVal → FileState

/-- The empty valid structure `{"sections": {}, "chunks": {}}`. -/
def emptyStruct : JVal :=
  JVal.obj [(chars "sections", JVal.obj []), (chars "chunks", JVal.obj [])]

/-- Python `str(x)` for a JSON value used as a dict key in the old-format
conversion (`str(item['idx'])`).  Faithful for numbers, strings, booleans
and `None`; containers use their `repr` (modelled without string-escaping
corner cases, which the conversion never hits for sane stores). -/
def jStrKey : JVal → Str
  | JVal.null => chars "None"
  | JVal.bool b => if b then chars "True" else chars "False"
  | JVal.num n => chars (toString n)
  | JVal.str s => s
  | JVal.arr _ => chars "[...]"
  | JVal.obj _ => chars "{...}"

/-- The old-format conversion (`metadata_manager.py` 87-102): a list branch
is rebuilt as a dict keyed by each item's `idx`. -/
def convertListBranch (items : List JVal) : JVal :=
  JVal.obj (items.foldl
    (fun acc item =>
      match item with
      | JVal.obj fields =>
        match JVal.lookupKey fields (chars "idx") with
        | some idxVal => JVal.setKey acc (jStrKey idxVal) (JVal.obj fields)
        | none => acc
      | _ => acc)
    [])

/-- Ensure/convert one top-level branch as `_load_from_file` does:
missing → `{}`; a list → converted dict; anything else → untouched. -/
def fixBranch (l : List (Str × JVal)) (key : Str) : List (Str × JVal) :=
  match JVal.lookupKey l key with
  | none => JVal.setKey l key (JVal.obj [])
  | some (JVal.arr items) => JVal.setKey l key (convertListBranch items)
  | some _ => l

/-- `ParseResultCollector._load_from_file` (`metadata_manager.py` 67-111).
A missing or unparseable file, or a non-dict top level, yields the empty
structure; otherwise the two branches are ensured/converted. -/
def loadFromFile : FileState → JVal
  | FileState.missing => emptyStruct
  | FileState.invalidJson => emptyStruct
  | FileState.validJson v =>
    match v with
    | JVal.obj l => JVal.obj (fixBranch (fixBranch l (chars "sections")) (chars "chunks"))
    | _ => emptyStruct

/-- Python run-time values flowing through `get`: either JSON data from the
store or a distinct freshly allocated `object()` identified by its
allocation. -/
inductive PyVal where
  | js : JVal → PyVal
  | newObject : Nat → PyVal

/-- `path.split('.') if path else []` (`metadata_manager.py` 167). -/
def pathParts (path : Str) : List Str :=
  if path = [] then [] else splitOnChar '.' path

/-- The navigation loop of `get` (`metadata_manager.py` 169-174): indexing a
dict with a present key continues; a missing key (`KeyError`) or indexing a
non-dict with a string (`TypeError`) returns `none`, i.e. the default. -/
def navigate : JVal → List Str → Option JVal
  | v, [] => some v
  | JVal.obj l, p :: rest =>
    match JVal.lookupKey l p with
    | some v => navigate v rest
    | none => none
  | _, _ :: _ => none

/-- `ParseResultCollector.get(path, default)` (`metadata_manager.py`
146-174): reload from file, navigate, return the default on failure. -/
def storeGet (fs : FileState) (path : Str) (default : PyVal) : PyVal :=
  match navigate (loadFromFile fs) (pathParts path) with
  | some v => PyVal.js v
  | none => default

/-- `get` over a given in-memory structure (used to express "behaves as if
the store content were `{sections: {}, chunks: {}}`"). -/
def structGet (v : JVal) (path : Str) (default : PyVal) : PyVal :=
  match navigate v (pathParts path) with
  | some w => PyVal.js w
  | none => default

/-- Python `x is <the i-th freshly allocated object()>`: true exactly when
`x` is that very allocation; a JSON value from the store is never identical
to a fresh `object()`. -/
def isFreshObject (x : PyVal) (i : Nat) : Bool :=
  match x with
  | PyVal.newObject j => j = i
  | PyVal.js _ => false

/-- `ParseResultCollector.exists` (`metadata_manager.py` 294-303):
`self.get(path, object()) is not object()`.  The default passed to `get` is
allocation 0; the object compared against is the distinct allocation 1. -/
def storeExists (fs : FileState) (path : Str) : Bool :=
  !(isFreshObject (storeGet fs path (PyVal.newObject 0)) 1)

/-- The store content has the shape the manager documents:
a dict with dict-valued `sections` and `chunks` branches. -/
def WellShaped : JVal → Prop
  | JVal.obj l =>
    (∃ s, JVal.lookupKey l (chars "sections") = some (JVal.obj s)) ∧
    (∃ c, JVal.lookupKey l (chars "chunks") = some (JVal.obj c))
  | _ => False

/-- A backing file that is missing, not valid JSON, or whose content is not
of the expected shape (claim C9's hypothesis). -/
def BadBacking (fs : FileState) : Prop :=
  fs = FileState.missing ∨ fs = FileState.invalidJson ∨
    ∃ v, fs = FileState.validJson v ∧ ¬ WellShaped v

/-! ## Decimal printing and parsing

`str(i)` and `int(s)` for Python integers.  Printing uses explicit fuel so
that it is structurally recursive (the fuel `n + 1` always suffices since a
number has at most as many digits as its value). -/
def digitChar (d : Nat) : Char := Char.ofNat (48 + d)

def digitVal (c : Char) : Nat := c.toNat - 48

def isDigitCh (c : Char) : Bool := 48 ≤ c.toNat && c.toNat ≤ 57

def pyStrNatAux : Nat → Nat → Str
  | 0, _ => []
  | fuel + 1, n =>
    if n < 10 then [digitChar n]
    else pyStrNatAux fuel (n / 10) ++ [digitChar (n % 10)]

/-- `str(n)` for a natural number. -/
def pyStrNat (n : Nat) : Str := pyStrNatAux (n + 1) n

/-- `str(i)` for a Python integer. -/
def pyStr (i : Int) : Str :=
  if i < 0 then '-' :: pyStrNat (-i).toNat else pyStrNat i.toNat

/-- Accumulator form of decimal parsing. -/
def parseDigitsAcc (acc : Nat) : Str → Nat
  | [] => acc
  | c :: rest => parseDigitsAcc (acc * 10 + digitVal c) rest

/-- Python `int(s)` under `try/except (ValueError, TypeError)`: strip
whitespace, optional sign, then a nonempty digit run (`_` digit grouping is
not modelled; no store key produced by this program contains it). -/
def pyInt (s : Str) : Option Int :=
  let t := pyStrip s
  match t with
  | '-' :: rest =>
    if rest ≠ [] ∧ rest.all isDigitCh then some (-(parseDigitsAcc 0 rest : Int)) else none
  | '+' :: rest =>
    if rest ≠ [] ∧ rest.all isDigitCh then some ((parseDigitsAcc 0 rest : Int)) else none
  | u => if u ≠ [] ∧ u.all isDigitCh then some ((parseDigitsAcc 0 u : Int)) else none

/-! ## Section extraction: `extract_fb2.py`

The parsed FB2 document is an inductive tree (the markup parser is an
external collaborator producing the tree, per the specification).  Each node
has an optional `<title>` text, its own textual content (text outside nested
sections), and nested sections. -/
inductive FBTree where
  | sec : Option Str → Str → List FBTree → FBTree

def FBTree.title : FBTree → Option Str
  | sec t _ _ => t

def FBTree.content : FBTree → Str
  | sec _ c _ => c

def FBTree.children : FBTree → List FBTree
  | sec _ _ cs => cs

/-- Building `full_title` (`extract_fb2.py` 250-256); `if title:` is Python
truthiness, so an absent or empty title falls back to the parent title. -/
def fullTitleOf (title : Option Str) (parentTitle : Str) : Str :=
  match title with
  | some t => if t ≠ [] then (if parentTitle ≠ [] then parentTitle ++ chars " - " ++ t else t)
              else parentTitle
  | none => parentTitle

/-- Python `str.lower()` for the ASCII and Cyrillic letters this program
handles. -/
def pyLower (c : Char) : Char :=
  if 0x410 ≤ c.toNat ∧ c.toNat ≤ 0x42F then Char.ofNat (c.toNat + 0x20)
  else if c.toNat = 0x401 then Char.ofNat 0x451
  else c.toLower

/-- `sanitize_filename` (`extract_fb2.py` 89-120); `\w` is modelled as
ASCII alphanumerics, `_`, and the Cyrillic block the code names
explicitly. -/
def isWordCh (c : Char) : Bool :=
  c.isAlphanum || c = '_' || (0x400 ≤ c.toNat && c.toNat ≤ 0x4FF)

/-- Replace every maximal run of characters satisfying `p` by the single
character `r` (the `re.sub(r'[...]+', r, s)` pattern); `inRun` records
whether the previous character was part of a run. -/
def replaceRunsGo (p : Char → Bool) (r : Char) : Bool → Str → Str
  | _, [] => []
  | inRun, c :: rest =>
    if p c then
      if inRun then replaceRunsGo p r true rest
      else r :: replaceRunsGo p r true rest
    else c :: replaceRunsGo p r false rest

def replaceRuns (p : Char → Bool) (r : Char) (s : Str) : Str :=
  replaceRunsGo p r false s

def stripUnderscores (s : Str) : Str :=
  ((s.dropWhile (fun c => c = '_')).reverse.dropWhile (fun c => c = '_')).reverse

def sanitize_filename (s : Str) : Str :=
  let t := s.map pyLower
  let t := replaceRuns (fun c => pyWS c || c = '-') '_' t
  let t := t.filter isWordCh
  let t := replaceRuns (fun c => c = '_') '_' t
  let t := stripUnderscores t
  if 50 < strLen t then (t.take 50).reverse.dropWhile (fun c => c = '_') |>.reverse else t

/-- `f"{idx:04d}"` for the non-negative indices this program produces. -/
def pad4 (i : Int) : Str :=
  let s := pyStr i
  if s.length < 4 then List.replicate (4 - s.length) '0' ++ s else s

/-- `generate_unique_filename` (`extract_fb2.py` 123-133). -/
def generate_unique_filename (fullTitle : Str) (idx : Int) : Str :=
  let sanitized := sanitize_filename fullTitle
  if sanitized ≠ [] then pad4 idx ++ '_' :: sanitized else pad4 idx

/-- `os.path.join(output_dir, 'sections', f'{unique_filename}.txt')` with the
default output directory. -/
def sectionPath (idx : Int) (fullTitle : Str) : Str :=
  chars "processed_book/sections/" ++ generate_unique_filename fullTitle idx ++ chars ".txt"

/-- One persisted section record: the metadata entry plus (as `fileBody`)
the exact content of the section file artifact written by
`ParseResultCollector.add_section` (`metadata_manager.py` 437-442). -/
structure SectionMeta where
  idx : Int
  title : Str
  fileBody : Str
  sectionFile : Str
  deriving Repr, DecidableEq

structure ChunkMeta where
  idx : Int
  textLength : Int
  startPos : Int
  endPos : Int
  deriving Repr, DecidableEq

structure SectionChunks where
  sectionFile : Str
  chunks : List (Str × ChunkMeta)
  deriving Repr, DecidableEq

/-- The metadata store as the extraction/chunking pipeline uses it: the two
top-level branches, as insertion-ordered dicts (timestamps and summary-file
fields are omitted; nothing reads them). -/
structure Store where
  sections : List (Str × SectionMeta)
  chunks : List (Str × SectionChunks)
  deriving Repr, DecidableEq

def emptyStore : Store := ⟨[], []⟩

/-- Python `dict[key]`. -/
def alookup {α : Type} : List (Str × α) → Str → Option α
  | [], _ => none
  | (k', v) :: rest, k => if k' = k then some v else alookup rest k

/-- Python `dict[key] = value`. -/
def aset {α : Type} : List (Str × α) → Str → α → List (Str × α)
  | [], k, v => [(k, v)]
  | (k', v') :: rest, k, v => if k' = k then (k, v) :: rest else (k', v') :: aset rest k v

/-- `max(int-parseable keys, default -1)`, the resume-index computation
(`extract_fb2.py` 393-399, `md_to_chunks.py` 54-65). -/
def maxParseIdx {α : Type} (entries : List (Str × α)) : Int :=
  entries.foldl (fun m kv => match pyInt kv.1 with | some n => max m n | none => m) (-1)

/-- `check_section_exists_by_title` (`extract_fb2.py` 195-215): false for a
falsy title, else true iff some stored section has exactly this title. -/
def check_section_exists_by_title (store : Store) (title : Str) : Bool :=
  if title = [] then false
  else store.sections.any (fun kv => kv.2.title = title)

/-- Extraction state: the store, the set of section files on disk, and the
running index `section_counter`. -/
structure ExtState where
  store : Store
  fsPaths : List Str
  counter : Int
  deriving Repr, DecidableEq

/-- `ParseResultCollector.add_section` (`metadata_manager.py` 377-465):
write the section file (with its `=== title ===` header) and record the
metadata entry under key `str(idx)`. -/
def add_section (st : ExtState) (idx : Int) (title content : Str) : ExtState :=
  let path := sectionPath idx title
  let body := (if title ≠ [] then chars "=== " ++ title ++ chars " ===\n\n" else []) ++ content
  { st with
    store := { st.store with
               sections := aset st.store.sections (pyStr idx) ⟨idx, title, body, path⟩ }
    fsPaths := st.fsPaths ++ [path] }

/-- Persisting one leaf section or long-section part: the common body of
`extract_fb2.py` 284-317 (parts loop) and 318-352 (normal branch):
title-dedup check, index assignment, file-exists check, metadata check,
then `add_section`. -/
def processLeaf (st : ExtState) (title content : Str) : ExtState :=
  if check_section_exists_by_title st.store title then st
  else
    let idx := st.counter
    let st' := { st with counter := idx + 1 }
    if sectionPath idx title ∈ st'.fsPaths then st'
    else if (alookup st'.store.sections (pyStr idx)).isSome then st'
    else add_section st' idx title content

mutual
/-- `extract_section_recursive` (`extract_fb2.py` 241-352): a node with
nested sections recurses into them (its own content is dropped); a leaf with
nonempty stripped content is persisted, split into parts first when longer
than 100000 characters. -/
def extract_section_recursive : FBTree → Str → ExtState → ExtState
  | FBTree.sec title content [], parentTitle, st =>
    let fullTitle := fullTitleOf title parentTitle
    if pyStrip content ≠ [] then
      if 100000 < strLen content then
        (split_long_section_by_paragraphs content fullTitle 100000).foldl
          (fun s p => processLeaf s p.1 p.2) st
      else processLeaf st fullTitle content
    else st
  | FBTree.sec title _ (c :: cs), parentTitle, st =>
    extractChildren (c :: cs) (fullTitleOf title parentTitle) st

/-- The child loop of `extract_sections_content` / nested-section recursion. -/
def extractChildren : List FBTree → Str → ExtState → ExtState
  | [], _, st => st
  | t :: ts, parentTitle, st =>
    extractChildren ts parentTitle (extract_section_recursive t parentTitle st)
end

/-- `parse_fb2_content` (`extract_fb2.py` 355-423): resume the counter from
the maximal integer-parseable stored section index plus one, then extract
all top-level body sections. -/
def parse_fb2_content (roots : List FBTree) (store : Store) (fsPaths : List Str) : ExtState :=
  extractChildren roots [] ⟨store, fsPaths, maxParseIdx store.sections + 1⟩

/-! ## Chunk persistence (`md_to_chunks.py` 52-65 and 152-190) and the
pipeline driver -/
/-- `ParseResultCollector.get_section_chunks` (`metadata_manager.py`
321-331), default `{}`. -/
def get_section_chunks (store : Store) (idx : Int) : List (Str × ChunkMeta) :=
  match alookup store.chunks (chars "section_" ++ pyStr idx) with
  | some sc => sc.chunks
  | none => []

/-- Building the chunk metadata dict (`md_to_chunks.py` 152-184): start from
the existing entries, then add every produced chunk under
`str(max existing index + 1), ...` in order. -/
def buildChunksMeta (existing : List (Str × ChunkMeta)) (newChunks : List Chunk) :
    List (Str × ChunkMeta) :=
  (newChunks.foldl
    (fun acc c => (aset acc.1 (pyStr acc.2) ⟨acc.2, strLen c.1, c.2.1, c.2.2⟩, acc.2 + 1))
    (existing, maxParseIdx existing + 1)).1

/-- `ParseResultCollector.set_section_chunks` (`metadata_manager.py`
333-343). -/
def set_section_chunks (store : Store) (idx : Int) (file : Str)
    (cm : List (Str × ChunkMeta)) : Store :=
  { store with chunks := aset store.chunks (chars "section_" ++ pyStr idx) ⟨file, cm⟩ }

/-- Chunking one stored section with metadata persistence
(`md_to_chunks.py` 52-65, 152-190). -/
def chunkSection (tok : Str → List Str) (minCS maxCS ov : Int) (store : Store)
    (idx : Int) (file body : Str) : Store :=
  let existing := get_section_chunks store idx
  let filtered := split_markdown_into_chunks tok body minCS maxCS ov
  set_section_chunks store idx file (buildChunksMeta existing filtered)

/-- Modelled from the spec: the full-pipeline driver is not part of the
sources (only the extraction and chunking components are); per §2 of the
specification, "a document tree → Section Extractor → ... → Text Chunker
invoked per section/part".  It invokes the chunker once per stored section,
on that section's content artifact. -/
def chunkAllSections (tok : Str → List Str) (minCS maxCS ov : Int) (store : Store) : Store :=
  store.sections.foldl
    (fun s kv => chunkSection tok minCS maxCS ov s kv.2.idx kv.2.sectionFile kv.2.fileBody)
    store

structure PipState where
  store : Store
  fsPaths : List Str
  deriving Repr, DecidableEq

/-- Modelled from the spec: one full pipeline run — section extraction
followed by chunking of every section (§2 data flow). -/
def pipelineOnce (tok : Str → List Str) (minCS maxCS ov : Int) (roots : List FBTree)
    (ps : PipState) : PipState :=
  let e := parse_fb2_content roots ps.store ps.fsPaths
  ⟨chunkAllSections tok minCS maxCS ov e.store, e.fsPaths⟩

/-- Total number of stored sections. -/
def sectionCount (s : Store) : Nat := s.sections.length

/-- Total number of stored chunks across all sections. -/
def chunkCount (s : Store) : Nat := (s.chunks.map (fun kv => kv.2.chunks.length)).sum

/-- A backing store whose `sections` branch is present but neither a dict
nor a list. -/
def badStore : JVal :=
  JVal.obj [(chars "sections", JVal.num 5), (chars "chunks", JVal.obj [])]

/-- The titled parts built from consecutive paragraph groups, with part
numbers starting at `start`. -/
def titledParts (title : Str) (start : Int) : List (List Str) → List (Str × Str)
  | [] => []
  | g :: rest => (partTitle title start, joinPP g) :: titledParts title (start + 1) rest

/-! ## Whitespace-clean sentences and the sentence-level overlap walk
(claims C1, C2, C3)

A sentence is *clean* when it is nonempty and its space-split words are all
nonempty and whitespace-free (no leading/trailing/double spaces, no
whitespace other than single inner spaces).  This is the regime in which the
word-level re-splitting of the overlap seed (`md_to_chunks.py` 126) is
lossless. -/
def cleanSent (s : Str) : Bool :=
  s ≠ [] && (splitOnChar ' ' s).all (fun w => w ≠ [] && w.all wordChar)

/-- The words of a list of sentences, in order. -/
def wordsOf (l : List Str) : List Str :=
  (l.map (fun s => splitOnChar ' ' s)).flatten

/-- `overlap_text` as a function of the chosen trailing elements: each
element followed by one space. -/
def mkAcc (l : List Str) : Str := (l.map (fun s => s ++ [' '])).flatten

/-- `overlap_len` as a function of the chosen trailing elements. -/
def sumLen (l : List Str) : Int := (l.map (fun s => strLen s + 1)).sum

/-- The backward overlap walk observed at the element level: walking `rev`
(the current chunk reversed), accumulate elements while the accumulated
length is below `ov`. -/
def greedyTailGo (ov : Int) : List Str → Int → List Str → List Str
  | [], _, acc => acc
  | s :: rest, accLen, acc =>
    if accLen < ov then greedyTailGo ov rest (accLen + strLen s + 1) (s :: acc)
    else acc

/-- The greedy whole-element suffix of `l` accumulating at least `ov`
characters (the spec's sentence-aligned overlap). -/
def greedySuffix (l : List Str) (ov : Int) : List Str :=
  greedyTailGo ov l.reverse 0 []

/-! ## Claims C1, C2: spans, segments and the main-loop invariant -/
/-- The segment of the normalized text at `[a, b)`. -/
def segN (N : Str) (a b : Int) : Str := (N.drop a.toNat).take (b - a).toNat

/-- Consecutive chunk spans are linked: starts are nondecreasing, each next
chunk starts no later than the previous ends (the overlap), ends are
nondecreasing. -/
def spanLink (c d : Chunk) : Prop :=
  c.2.1 ≤ d.2.1 ∧ d.2.1 ≤ c.2.2 ∧ c.2.2 ≤ d.2.2

def spanChain : List Chunk → Prop
  | [] => True
  | [_] => True
  | c :: d :: rest => spanLink c d ∧ spanChain (d :: rest)

/-- Every chunk's text is the segment of `N` at its recorded span. -/
def chunksSeg (N : Str) (cs : List Chunk) : Prop :=
  ∀ c ∈ cs, 0 ≤ c.2.1 ∧ c.2.2 = c.2.1 + strLen c.1 ∧ c.2.2 ≤ strLen N ∧
    segN N c.2.1 c.2.2 = c.1

def firstStart : List Chunk → Int
  | [] => 0
  | c :: _ => c.2.1

def lastEnd : List Chunk → Int
  | [] => 0
  | [c] => c.2.2
  | _ :: d :: rest => lastEnd (d :: rest)

/-- The sentence-loop invariant for single-space tokenizations: the pending
chunk is the suffix of the consumed join starting at `start_pos_global`, the
closed chunks are segments of the consumed join, and the spans form a chain
starting at offset 0. -/
def LoopOK (pre : List Str) (st : MDState) : Prop :=
  (pre = [] ∧ st.chunks = [] ∧ st.current = [] ∧ st.startPos = 0) ∨
  (pre ≠ [] ∧ st.current ≠ [] ∧ (∀ e ∈ st.current, cleanSent e = true) ∧
    0 ≤ st.startPos ∧
    joinL [' '] st.current = (joinL [' '] pre).drop st.startPos.toNat ∧
    st.startPos + strLen (joinL [' '] st.current) = strLen (joinL [' '] pre) ∧
    chunksSeg (joinL [' '] pre) st.chunks ∧
    spanChain (st.chunks ++ [(joinL [' '] st.current, st.startPos,
      st.startPos + strLen (joinL [' '] st.current))]) ∧
    firstStart (st.chunks ++ [(joinL [' '] st.current, st.startPos,
      st.startPos + strLen (joinL [' '] st.current))]) = 0)

/-- Invariant of the extraction walk relative to the pre-run store content
`base` and the pre-run maximal index `k`: the counter stays above `k`, the
pre-run entries are untouched, and every added key is the decimal print of
an index in `(k, counter)`. -/
def ExtInv (k : Int) (base : List (Str × SectionMeta)) (st : ExtState) : Prop :=
  k + 1 ≤ st.counter ∧
  (∀ key, alookup base key ≠ none →
    alookup st.store.sections key = alookup base key) ∧
  (∀ key, alookup st.store.sections key ≠ none → alookup base key = none →
    ∃ n : Int, key = pyStr n ∧ k < n ∧ n < st.counter)

/-- The title-presence test of `check_section_exists_by_title`, as a function
of the sections dict alone. -/
def titleStoredSecs (secs : List (Str × SectionMeta)) (title : Str) : Bool :=
  if title = [] then false else secs.any (fun kv => kv.2.title = title)

/-- Growth of the stored title set. -/
def TitleMono (s s' : List (Str × SectionMeta)) : Prop :=
  ∀ t, titleStoredSecs s t = true → titleStoredSecs s' t = true

/-- The run invariant of a fresh extraction: a nonnegative counter, every
disk path a section path of a smaller index, every stored key the print of
a smaller nonnegative index. -/
def Rinv (st : ExtState) : Prop :=
  0 ≤ st.counter ∧
  (∀ q ∈ st.fsPaths, ∃ (n : Int) (u : Str), 0 ≤ n ∧ n < st.counter ∧
    q = sectionPath n u) ∧
  (∀ key, alookup st.store.sections key ≠ none →
    ∃ n : Int, 0 ≤ n ∧ key = pyStr n ∧ n < st.counter)

mutual
/-- Every (nonempty-content) leaf of the tree has a nonempty full title. -/
def allTitled : FBTree → Str → Bool
  | FBTree.sec title content [], p =>
    decide (pyStrip content = []) || decide (fullTitleOf title p ≠ [])
  | FBTree.sec title _ (c :: cs), p =>
    allTitledL (c :: cs) (fullTitleOf title p)

def allTitledL : List FBTree → Str → Bool
  | [], _ => true
  | t :: ts, p => allTitled t p && allTitledL ts p
end

mutual
/-- Every persistable leaf title of the tree (or of its long-section parts)
is already recorded in the sections dict. -/
def AllStoredTree : FBTree → Str → List (Str × SectionMeta) → Prop
  | FBTree.sec title content [], p, s =>
    pyStrip content ≠ [] →
      (if 100000 < strLen content then
        ∀ pr ∈ split_long_section_by_paragraphs content (fullTitleOf title p) 100000,
          titleStoredSecs s pr.1 = true
       else titleStoredSecs s (fullTitleOf title p) = true)
  | FBTree.sec title _ (c :: cs), p, s => AllStoredL (c :: cs) (fullTitleOf title p) s

def AllStoredL : List FBTree → Str → List (Str × SectionMeta) → Prop
  | [], _, _ => True
  | t :: ts, p, s => AllStoredTree t p s ∧ AllStoredL ts p s
end

/-! ## Theorems -/

theorem joinL_nil (sep : Str) : joinL sep [] = [] := rfl

theorem joinL_single (sep : Str) (s : Str) : joinL sep [s] = s := rfl

theorem joinL_cons (sep : Str) (s t : Str) (rest : List Str) :
    joinL sep (s :: t :: rest) = s ++ sep ++ joinL sep (t :: rest) := rfl

theorem splitOnChar_cons_eq (sep a : Char) (rest : Str) :
    splitOnChar sep (a :: rest) =
      if a = sep then [] :: splitOnChar sep rest
      else match splitOnChar sep rest with
        | h :: t => (a :: h) :: t
        | [] => [[a]] := rfl

theorem splitOnChar_ne_nil (sep : Char) (s : Str) : splitOnChar sep s ≠ [] := by
  cases s with
  | nil => simp [splitOnChar]
  | cons c rest =>
    simp only [splitOnChar]
    by_cases h : c = sep
    · simp [h]
    · simp only [if_neg h]
      cases splitOnChar sep rest <;> simp

/-! ## Lemmas and claim theorems for the metadata store -/
theorem JVal.lookupKey_setKey_self (l : List (Str × JVal)) (k : Str) (v : JVal) :
    JVal.lookupKey (JVal.setKey l k v) k = some v := by
  induction l with
  | nil => simp [JVal.setKey, JVal.lookupKey]
  | cons kv rest ih =>
    obtain ⟨k', v'⟩ := kv
    by_cases h : k' = k
    · simp [JVal.setKey, JVal.lookupKey, h]
    · simp [JVal.setKey, JVal.lookupKey, h, ih]

theorem JVal.lookupKey_setKey_other (l : List (Str × JVal)) (k k' : Str) (v : JVal)
    (h : k' ≠ k) : JVal.lookupKey (JVal.setKey l k v) k' = JVal.lookupKey l k' := by
  induction l with
  | nil =>
    have h2 : ¬ k = k' := fun he => h he.symm
    simp [JVal.setKey, JVal.lookupKey, h2]
  | cons kv rest ih =>
    obtain ⟨k0, v0⟩ := kv
    by_cases h0 : k0 = k
    · subst h0
      have h2 : ¬ k0 = k' := fun he => h he.symm
      simp [JVal.setKey, JVal.lookupKey, h2]
    · simp only [JVal.setKey, if_neg h0, JVal.lookupKey]
      by_cases h1 : k0 = k'
      · simp [h1]
      · simp [h1, ih]

theorem fixBranch_of_none (l : List (Str × JVal)) (key : Str)
    (h : JVal.lookupKey l key = none) :
    fixBranch l key = JVal.setKey l key (JVal.obj []) := by
  unfold fixBranch
  rw [h]

theorem fixBranch_of_arr (l : List (Str × JVal)) (key : Str) (items : List JVal)
    (h : JVal.lookupKey l key = some (JVal.arr items)) :
    fixBranch l key = JVal.setKey l key (convertListBranch items) := by
  unfold fixBranch
  rw [h]

theorem fixBranch_of_other (l : List (Str × JVal)) (key : Str) (v : JVal)
    (h : JVal.lookupKey l key = some v) (hv : ∀ items, v ≠ JVal.arr items) :
    fixBranch l key = l := by
  unfold fixBranch
  rw [h]
  cases v with
  | arr items => exact absurd rfl (hv items)
  | null => rfl
  | bool b => rfl
  | num n => rfl
  | str s => rfl
  | obj o => rfl

/-- `storeGet` returns either a value loaded from the store or the default
it was given; in particular the navigation never raises. -/
theorem storeGet_js_or_default (fs : FileState) (path : Str) (d : PyVal) :
    (∃ v, storeGet fs path d = PyVal.js v) ∨ storeGet fs path d = d := by
  unfold storeGet
  cases h : navigate (loadFromFile fs) (pathParts path) with
  | none => right; rfl
  | some v => left; exact ⟨v, rfl⟩

/-- C10: `ParseResultCollector.exists(path)` returns `True` for every store
state and every path — also for paths absent from the store — because the
sentinel default passed to `get` is compared via `is not` against a second,
freshly created `object()`, which is identical neither to any stored value
nor to the first sentinel. -/
theorem c10_exists_always_true (fs : FileState) (path : Str) :
    storeExists fs path = true := by
  unfold storeExists storeGet
  cases h : navigate (loadFromFile fs) (pathParts path) with
  | none => rfl
  | some v => rfl

/-- C9, counterexample: for this not-well-shaped backing file, `get` does
not behave as on the empty structure — the wrong-typed `sections` branch is
preserved, not reinitialized. -/
theorem c9_counterexample :
    BadBacking (FileState.validJson badStore) ∧
    storeGet (FileState.validJson badStore) (chars "sections") (PyVal.js JVal.null) ≠
      structGet emptyStruct (chars "sections") (PyVal.js JVal.null) := by
  constructor
  · right; right
    refine ⟨badStore, rfl, ?_⟩
    rintro ⟨⟨s, hs⟩, -⟩
    have : JVal.lookupKey [(chars "sections", JVal.num 5), (chars "chunks", JVal.obj [])]
        (chars "sections") = some (JVal.num 5) := rfl
    rw [this] at hs
    simp at hs
  · have h1 : storeGet (FileState.validJson badStore) (chars "sections")
        (PyVal.js JVal.null) = PyVal.js (JVal.num 5) := rfl
    have h2 : structGet emptyStruct (chars "sections") (PyVal.js JVal.null) =
        PyVal.js (JVal.obj []) := rfl
    rw [h1, h2]
    intro h
    injection h with h3
    cases h3

/-- C9 (amended): reads never raise; a missing or unparseable backing file,
or one whose top level is not a dict, behaves as the empty structure
`{sections: {}, chunks: {}}`; a missing `sections`/`chunks` branch is
re-added as an empty dict; but a present branch that is neither a dict nor a
list is preserved as-is (reads of it return the stored value, not the empty
dict). -/
theorem c9_amended :
    loadFromFile FileState.missing = emptyStruct ∧
    loadFromFile FileState.invalidJson = emptyStruct ∧
    (∀ v : JVal, (∀ l, v ≠ JVal.obj l) →
      loadFromFile (FileState.validJson v) = emptyStruct) ∧
    (∀ l, JVal.lookupKey l (chars "sections") = none →
      JVal.lookupKey
        (match loadFromFile (FileState.validJson (JVal.obj l)) with
          | JVal.obj l2 => l2 | _ => []) (chars "sections") = some (JVal.obj [])) ∧
    (∀ l, JVal.lookupKey l (chars "chunks") = none →
      JVal.lookupKey
        (match loadFromFile (FileState.validJson (JVal.obj l)) with
          | JVal.obj l2 => l2 | _ => []) (chars "chunks") = some (JVal.obj [])) ∧
    (∀ l v, JVal.lookupKey l (chars "sections") = some v →
      (∀ items, v ≠ JVal.arr items) →
      JVal.lookupKey
        (match loadFromFile (FileState.validJson (JVal.obj l)) with
          | JVal.obj l2 => l2 | _ => []) (chars "sections") = some v) := by
  have hload : ∀ l, (match loadFromFile (FileState.validJson (JVal.obj l)) with
      | JVal.obj l2 => l2 | _ => []) =
      fixBranch (fixBranch l (chars "sections")) (chars "chunks") := fun l => rfl
  have hne : (chars "sections") ≠ (chars "chunks") := by decide
  refine ⟨rfl, rfl, ?_, ?_, ?_, ?_⟩
  · intro v hv
    cases v with
    | obj l => exact absurd rfl (hv l)
    | null => rfl
    | bool b => rfl
    | num n => rfl
    | str s => rfl
    | arr a => rfl
  · intro l hl
    rw [hload]
    have hsec : JVal.lookupKey (fixBranch l (chars "sections")) (chars "sections") =
        some (JVal.obj []) := by
      rw [fixBranch_of_none l _ hl]
      exact JVal.lookupKey_setKey_self _ _ _
    cases hc : JVal.lookupKey (fixBranch l (chars "sections")) (chars "chunks") with
    | none =>
      rw [fixBranch_of_none _ _ hc, JVal.lookupKey_setKey_other _ _ _ _ hne]
      exact hsec
    | some v =>
      cases v with
      | arr items =>
        rw [fixBranch_of_arr _ _ _ hc, JVal.lookupKey_setKey_other _ _ _ _ hne]
        exact hsec
      | null => rw [fixBranch_of_other _ _ _ hc (fun i h => by cases h)]; exact hsec
      | bool b => rw [fixBranch_of_other _ _ _ hc (fun i h => by cases h)]; exact hsec
      | num n => rw [fixBranch_of_other _ _ _ hc (fun i h => by cases h)]; exact hsec
      | str s => rw [fixBranch_of_other _ _ _ hc (fun i h => by cases h)]; exact hsec
      | obj o => rw [fixBranch_of_other _ _ _ hc (fun i h => by cases h)]; exact hsec
  · intro l hl
    rw [hload]
    have hl2 : JVal.lookupKey (fixBranch l (chars "sections")) (chars "chunks") = none := by
      cases hs : JVal.lookupKey l (chars "sections") with
      | none =>
        rw [fixBranch_of_none _ _ hs, JVal.lookupKey_setKey_other _ _ _ _ hne.symm]
        exact hl
      | some v =>
        cases v with
        | arr items =>
          rw [fixBranch_of_arr _ _ _ hs, JVal.lookupKey_setKey_other _ _ _ _ hne.symm]
          exact hl
        | null => rw [fixBranch_of_other _ _ _ hs (fun i h => by cases h)]; exact hl
        | bool b => rw [fixBranch_of_other _ _ _ hs (fun i h => by cases h)]; exact hl
        | num n => rw [fixBranch_of_other _ _ _ hs (fun i h => by cases h)]; exact hl
        | str s => rw [fixBranch_of_other _ _ _ hs (fun i h => by cases h)]; exact hl
        | obj o => rw [fixBranch_of_other _ _ _ hs (fun i h => by cases h)]; exact hl
    rw [fixBranch_of_none _ _ hl2]
    exact JVal.lookupKey_setKey_self _ _ _
  · intro l v hv hnotarr
    rw [hload]
    have hsec : JVal.lookupKey (fixBranch l (chars "sections")) (chars "sections") =
        some v := by
      rw [fixBranch_of_other _ _ _ hv hnotarr]
      exact hv
    cases hc : JVal.lookupKey (fixBranch l (chars "sections")) (chars "chunks") with
    | none =>
      rw [fixBranch_of_none _ _ hc, JVal.lookupKey_setKey_other _ _ _ _ hne]
      exact hsec
    | some w =>
      cases w with
      | arr items =>
        rw [fixBranch_of_arr _ _ _ hc, JVal.lookupKey_setKey_other _ _ _ _ hne]
        exact hsec
      | null => rw [fixBranch_of_other _ _ _ hc (fun i h => by cases h)]; exact hsec
      | bool b => rw [fixBranch_of_other _ _ _ hc (fun i h => by cases h)]; exact hsec
      | num n => rw [fixBranch_of_other _ _ _ hc (fun i h => by cases h)]; exact hsec
      | str s => rw [fixBranch_of_other _ _ _ hc (fun i h => by cases h)]; exact hsec
      | obj o => rw [fixBranch_of_other _ _ _ hc (fun i h => by cases h)]; exact hsec

/-- Witness for the amended C9, at concrete inputs: a numeric top level is
replaced by the empty structure; a missing `sections` branch is re-added;
a string-typed `sections` branch is preserved. -/
theorem c9_amended_witness :
    loadFromFile (FileState.validJson (JVal.num 7)) = emptyStruct ∧
    JVal.lookupKey
      (match loadFromFile (FileState.validJson (JVal.obj [(chars "chunks", JVal.obj [])])) with
        | JVal.obj l2 => l2 | _ => []) (chars "sections") = some (JVal.obj []) ∧
    JVal.lookupKey
      (match loadFromFile (FileState.validJson
          (JVal.obj [(chars "sections", JVal.str (chars "x")), (chars "chunks", JVal.obj [])])) with
        | JVal.obj l2 => l2 | _ => []) (chars "sections") = some (JVal.str (chars "x")) := by
  refine ⟨?_, ?_, ?_⟩
  · exact c9_amended.2.2.1 (JVal.num 7) (fun l h => by cases h)
  · exact c9_amended.2.2.2.1 [(chars "chunks", JVal.obj [])] rfl
  · exact c9_amended.2.2.2.2.2 [(chars "sections", JVal.str (chars "x")),
      (chars "chunks", JVal.obj [])] (JVal.str (chars "x")) rfl (fun items h => by cases h)

/-! ## Lemmas for the section splitter (claims C5, C6) -/
theorem joinL_cons_of_ne (sep s : Str) (l : List Str) (h : l ≠ []) :
    joinL sep (s :: l) = s ++ sep ++ joinL sep l := by
  cases l with
  | nil => exact absurd rfl h
  | cons t rest => rfl

theorem joinL_append (sep : Str) (l1 l2 : List Str) (h1 : l1 ≠ []) (h2 : l2 ≠ []) :
    joinL sep (l1 ++ l2) = joinL sep l1 ++ sep ++ joinL sep l2 := by
  induction l1 with
  | nil => exact absurd rfl h1
  | cons a rest ih =>
    cases rest with
    | nil =>
      rw [List.singleton_append, joinL_cons_of_ne _ _ _ h2, joinL_single]
    | cons b rest2 =>
      rw [List.cons_append, joinL_cons_of_ne _ _ _ (by simp), joinL_cons_of_ne _ _ _ (by simp),
        ih (by simp)]
      simp [List.append_assoc]

theorem flatten_ne_nil_of_mem {α : Type} (gs : List (List α)) (hgs : gs ≠ [])
    (h : ∀ g ∈ gs, g ≠ []) : gs.flatten ≠ [] := by
  cases gs with
  | nil => exact absurd rfl hgs
  | cons g rest =>
    have hg : g ≠ [] := h g (by simp)
    cases g with
    | nil => exact absurd rfl hg
    | cons c cs => simp

theorem join_of_joins (sep : Str) (gs : List (List Str)) (h : ∀ g ∈ gs, g ≠ []) :
    joinL sep (gs.map (joinL sep)) = joinL sep gs.flatten := by
  induction gs with
  | nil => rfl
  | cons g rest ih =>
    cases rest with
    | nil => simp [joinL]
    | cons g2 rest2 =>
      have hg : g ≠ [] := h g (by simp)
      have hrest : ∀ x ∈ g2 :: rest2, x ≠ [] := fun x hx => h x (by simp [hx])
      have hjoin_ne : (g2 :: rest2).flatten ≠ [] :=
        flatten_ne_nil_of_mem (g2 :: rest2) (by simp) hrest
      rw [List.map_cons, joinL_cons_of_ne _ _ _ (by simp), ih hrest,
        show (g :: g2 :: rest2).flatten = g ++ (g2 :: rest2).flatten from rfl,
        joinL_append sep g ((g2 :: rest2).flatten) hg hjoin_ne]

theorem splitPPGo_ne_nil (acc s : Str) : splitPPGo acc s ≠ [] := by
  induction acc, s using splitPPGo.induct with
  | case1 acc rest ih => simp [splitPPGo]
  | case2 acc c rest h ih => rw [splitPPGo]; exacts [ih, h]
  | case3 acc => simp [splitPPGo]

theorem joinPP_splitPPGo (acc s : Str) :
    joinPP (splitPPGo acc s) = acc.reverse ++ s := by
  induction acc, s using splitPPGo.induct with
  | case1 acc rest ih =>
    rw [splitPPGo]
    unfold joinPP at ih ⊢
    rw [joinL_cons_of_ne _ _ _ (splitPPGo_ne_nil [] rest), ih]
    simp
  | case2 acc c rest h ih =>
    rw [splitPPGo]
    · rw [ih]; simp
    · exact h
  | case3 acc => simp [splitPPGo, joinPP, joinL]

/-- `'\n\n'.join(content.split('\n\n')) == content`. -/
theorem joinPP_splitPP (s : Str) : joinPP (splitPP s) = s := by
  have := joinPP_splitPPGo [] s
  simpa [splitPP] using this

theorem titledParts_append (title : Str) (gs : List (List Str)) (g : List Str) :
    ∀ start : Int, titledParts title start (gs ++ [g]) =
      titledParts title start gs ++ [(partTitle title (start + gs.length), joinPP g)] := by
  induction gs with
  | nil => intro start; simp [titledParts]
  | cons g0 rest ih =>
    intro start
    rw [List.cons_append]
    show (partTitle title start, joinPP g0) :: titledParts title (start + 1) (rest ++ [g]) = _
    rw [ih (start + 1)]
    simp [titledParts]
    ring_nf

theorem titledParts_map_snd (title : Str) (gs : List (List Str)) :
    ∀ start : Int, (titledParts title start gs).map (fun p => p.2) = gs.map joinPP := by
  induction gs with
  | nil => intro start; rfl
  | cons g rest ih => intro start; simp [titledParts, ih (start + 1)]

/-- The part-building fold and the group-building fold run in lockstep. -/
theorem sl_fold_eq (title : Str) (target : Int) (ps : List Str) :
    ∀ (groups : List (List Str)) (cur : List Str) (size : Int),
      (ps.foldl (slStep title target)
        ⟨titledParts title 1 groups, cur, size, (groups.length : Int) + 1⟩).parts =
        titledParts title 1 (ps.foldl (slGroupStep target) (groups, cur, size)).1 ∧
      (ps.foldl (slStep title target)
        ⟨titledParts title 1 groups, cur, size, (groups.length : Int) + 1⟩).currentPart =
        (ps.foldl (slGroupStep target) (groups, cur, size)).2.1 ∧
      (ps.foldl (slStep title target)
        ⟨titledParts title 1 groups, cur, size, (groups.length : Int) + 1⟩).currentSize =
        (ps.foldl (slGroupStep target) (groups, cur, size)).2.2 ∧
      (ps.foldl (slStep title target)
        ⟨titledParts title 1 groups, cur, size, (groups.length : Int) + 1⟩).partNum =
        ((ps.foldl (slGroupStep target) (groups, cur, size)).1.length : Int) + 1 := by
  induction ps with
  | nil => intro groups cur size; exact ⟨rfl, rfl, rfl, rfl⟩
  | cons p rest ih =>
    intro groups cur size
    by_cases h : target < size + (strLen p + 2) ∧ cur ≠ []
    · have hstep : slStep title target
          ⟨titledParts title 1 groups, cur, size, (groups.length : Int) + 1⟩ p =
          ⟨titledParts title 1 groups ++
            [(partTitle title ((groups.length : Int) + 1), joinPP cur)],
            [p], strLen p, (groups.length : Int) + 1 + 1⟩ := by
        simp only [slStep]
        rw [if_pos h]
      have hgstep : slGroupStep target (groups, cur, size) p =
          (groups ++ [cur], [p], strLen p) := by
        simp only [slGroupStep]
        rw [if_pos h]
      have htp : titledParts title 1 (groups ++ [cur]) =
          titledParts title 1 groups ++
            [(partTitle title ((groups.length : Int) + 1), joinPP cur)] := by
        rw [titledParts_append]
        congr 2
        ring_nf
      simp only [List.foldl_cons, hstep, hgstep]
      have key := ih (groups ++ [cur]) [p] (strLen p)
      rw [htp] at key
      have hlen : ((groups ++ [cur]).length : Int) + 1 = (groups.length : Int) + 1 + 1 := by
        simp
      rw [hlen] at key
      exact key
    · have hstep : slStep title target
          ⟨titledParts title 1 groups, cur, size, (groups.length : Int) + 1⟩ p =
          ⟨titledParts title 1 groups, cur ++ [p], size + (strLen p + 2),
            (groups.length : Int) + 1⟩ := by
        simp only [slStep]
        rw [if_neg h]
      have hgstep : slGroupStep target (groups, cur, size) p =
          (groups, cur ++ [p], size + (strLen p + 2)) := by
        simp only [slGroupStep]
        rw [if_neg h]
      simp only [List.foldl_cons, hstep, hgstep]
      exact ih groups (cur ++ [p]) (size + (strLen p + 2))

/-- Final assembly: the flushed parts are the titled flushed groups. -/
theorem slParts_final (title : Str) (target : Int) (ps : List Str) :
    (if (ps.foldl (slStep title target) ⟨[], [], 0, 1⟩).currentPart ≠ [] then
      (ps.foldl (slStep title target) ⟨[], [], 0, 1⟩).parts ++
        [(partTitle title (ps.foldl (slStep title target) ⟨[], [], 0, 1⟩).partNum,
          joinPP (ps.foldl (slStep title target) ⟨[], [], 0, 1⟩).currentPart)]
     else (ps.foldl (slStep title target) ⟨[], [], 0, 1⟩).parts) =
    titledParts title 1
      (if (ps.foldl (slGroupStep target) ([], [], 0)).2.1 ≠ [] then
        (ps.foldl (slGroupStep target) ([], [], 0)).1 ++
          [(ps.foldl (slGroupStep target) ([], [], 0)).2.1]
       else (ps.foldl (slGroupStep target) ([], [], 0)).1) := by
  have key := sl_fold_eq title target ps [] [] 0
  simp only [titledParts, List.length_nil, Int.natCast_zero, zero_add] at key
  obtain ⟨h1, h2, h3, h4⟩ := key
  set S := ps.foldl (slStep title target) ⟨[], [], 0, 1⟩ with hS
  set G := ps.foldl (slGroupStep target) ([], [], 0) with hG
  by_cases hcur : G.2.1 ≠ []
  · rw [if_pos (h2 ▸ hcur), if_pos hcur, h1, h2, h4, titledParts_append]
    congr 2
    ring_nf
  · rw [if_neg (by rw [h2]; exact hcur), if_neg hcur, h1]

/-- For an over-threshold content, the splitter's parts are exactly the
titled consecutive paragraph groups. -/
theorem sl_eq_titledGroups (C t : Str) (T : Int) (h : T < strLen C) :
    split_long_section_by_paragraphs C t T = titledParts t 1 (slGroups C T) := by
  unfold split_long_section_by_paragraphs slGroups
  rw [if_neg (by omega : ¬ strLen C ≤ T)]
  exact slParts_final t (Int.fdiv (strLen C) (Int.fdiv (strLen C + T - 1) T)) (splitPP C)

/-- The groups of the splitter partition the paragraph list: their
concatenation is `content.split('\n\n')` and every group is nonempty. -/
theorem slGroups_spec (C : Str) (T : Int) :
    (slGroups C T).flatten = splitPP C ∧ ∀ g ∈ slGroups C T, g ≠ [] := by
  unfold slGroups
  have main : ∀ (ps : List Str) (groups : List (List Str)) (cur : List Str) (size : Int)
      (target : Int),
      (∀ g ∈ groups, g ≠ []) →
      (let r := ps.foldl (slGroupStep target) (groups, cur, size)
       r.1.flatten ++ r.2.1 = groups.flatten ++ cur ++ ps ∧ ∀ g ∈ r.1, g ≠ []) := by
    intro ps
    induction ps with
    | nil => intro groups cur size target hg; exact ⟨by simp, hg⟩
    | cons p rest ih =>
      intro groups cur size target hg
      by_cases h : target < size + (strLen p + 2) ∧ cur ≠ []
      · have hgstep : slGroupStep target (groups, cur, size) p =
            (groups ++ [cur], [p], strLen p) := by
          simp only [slGroupStep]
          rw [if_pos h]
        simp only [List.foldl_cons, hgstep]
        have hmem : ∀ g ∈ groups ++ [cur], g ≠ [] := by
          intro g hgm
          rcases List.mem_append.mp hgm with h1 | h1
          · exact hg g h1
          · rw [List.mem_singleton.mp h1]; exact h.2
        obtain ⟨e1, e2⟩ := ih (groups ++ [cur]) [p] (strLen p) target hmem
        refine ⟨?_, e2⟩
        rw [e1]
        simp
      · have hgstep : slGroupStep target (groups, cur, size) p =
            (groups, cur ++ [p], size + (strLen p + 2)) := by
          simp only [slGroupStep]
          rw [if_neg h]
        simp only [List.foldl_cons, hgstep]
        obtain ⟨e1, e2⟩ := ih groups (cur ++ [p]) (size + (strLen p + 2)) target hg
        refine ⟨?_, e2⟩
        rw [e1]
        simp
  obtain ⟨e1, e2⟩ := main (splitPP C) [] [] 0
    (Int.fdiv (strLen C) (Int.fdiv (strLen C + T - 1) T)) (by simp)
  by_cases hcur : ((splitPP C).foldl
      (slGroupStep (Int.fdiv (strLen C) (Int.fdiv (strLen C + T - 1) T))) ([], [], 0)).2.1 ≠ []
  · rw [if_pos hcur]
    constructor
    · rw [List.flatten_append]
      simpa using e1
    · intro g hgm
      rcases List.mem_append.mp hgm with h1 | h1
      · exact e2 g h1
      · rw [List.mem_singleton.mp h1]; exact hcur
  · rw [if_neg hcur]
    push_neg at hcur
    constructor
    · have := e1
      rw [hcur] at this
      simpa using this
    · exact e2

/-- C5, counterexample: for `C = "aaa\n\nbbb\n\nccc"` (13 characters) and
threshold 10, the splitter returns 3 parts, not `ceil(13/10) = 2`: the part
count is not the ceiling division of total length by threshold. -/
theorem c5_counterexample :
    10 < strLen (chars "aaa\n\nbbb\n\nccc") ∧
    ((split_long_section_by_paragraphs (chars "aaa\n\nbbb\n\nccc") (chars "t") 10).length : Int)
      ≠ Int.fdiv (strLen (chars "aaa\n\nbbb\n\nccc") + 10 - 1) 10 := by decide

/-- C5 (amended): `split_long_section_by_paragraphs` returns exactly the
single pair `(title, content)` when `len(content) <= threshold`; when
`len(content) > threshold` each returned part is the `"\n\n"`-join of a
consecutive nonempty run of the paragraphs of `content` (no paragraph is
ever split mid-paragraph), the runs partitioning the paragraph list in
order — but the part count is in general not `ceil(len(content)/threshold)`
(the ceiling only derives the per-part size target). -/
theorem c5_amended (C t : Str) (T : Int) :
    (strLen C ≤ T → split_long_section_by_paragraphs C t T = [(t, C)]) ∧
    (T < strLen C →
      split_long_section_by_paragraphs C t T = titledParts t 1 (slGroups C T) ∧
      (slGroups C T).flatten = splitPP C ∧
      ∀ g ∈ slGroups C T, g ≠ []) := by
  constructor
  · intro h
    unfold split_long_section_by_paragraphs
    rw [if_pos h]
  · intro h
    exact ⟨sl_eq_titledGroups C t T h, (slGroups_spec C T).1, (slGroups_spec C T).2⟩

/-- Witness for the amended C5 at concrete inputs: a short content is
returned unchanged; an over-threshold content is split along paragraph
groups. -/
theorem c5_amended_witness :
    split_long_section_by_paragraphs (chars "abc") (chars "t") 10 =
      [(chars "t", chars "abc")] ∧
    (split_long_section_by_paragraphs (chars "aaa\n\nbbb\n\nccc") (chars "t") 10 =
      titledParts (chars "t") 1 (slGroups (chars "aaa\n\nbbb\n\nccc") 10) ∧
     (slGroups (chars "aaa\n\nbbb\n\nccc") 10).flatten =
       splitPP (chars "aaa\n\nbbb\n\nccc") ∧
     ∀ g ∈ slGroups (chars "aaa\n\nbbb\n\nccc") 10, g ≠ []) :=
  ⟨(c5_amended (chars "abc") (chars "t") 10).1 (by decide),
   (c5_amended (chars "aaa\n\nbbb\n\nccc") (chars "t") 10).2 (by decide)⟩

/-- C6: for any content `C`, title and threshold `T` with `len(C) > T`,
joining the contents of all parts of `split_long_section_by_paragraphs`, in
order, with the paragraph separator `"\n\n"` yields exactly `C`. -/
theorem c6_split_reconstruction (C t : Str) (T : Int) (h : T < strLen C) :
    joinPP ((split_long_section_by_paragraphs C t T).map (fun p => p.2)) = C := by
  rw [sl_eq_titledGroups C t T h, titledParts_map_snd t (slGroups C T) 1]
  unfold joinPP
  rw [join_of_joins _ _ (slGroups_spec C T).2, (slGroups_spec C T).1]
  exact joinPP_splitPP C

/-- Witness for C6 at a concrete over-threshold content. -/
theorem c6_split_reconstruction_witness :
    10 < strLen (chars "aaa\n\nbbb\n\nccc") ∧
    joinPP ((split_long_section_by_paragraphs (chars "aaa\n\nbbb\n\nccc")
      (chars "t") 10).map (fun p => p.2)) = chars "aaa\n\nbbb\n\nccc" :=
  ⟨by decide, c6_split_reconstruction _ _ 10 (by decide)⟩

/-! ## Lemmas for the small-chunk post-pass (claim C8) -/
theorem strLen_append_ge_left (a b : Str) : strLen a ≤ strLen (a ++ b) := by
  unfold strLen
  simp

theorem filterStep_tail_inv (minCS : Int) (acc : List Chunk) (c : Chunk)
    (h : ∀ x ∈ acc.tail, minCS ≤ strLen x.1) :
    ∀ x ∈ (filterStep minCS acc c).tail, minCS ≤ strLen x.1 := by
  unfold filterStep
  by_cases hc : minCS ≤ strLen c.1 ∨ acc = []
  · rw [if_pos hc]
    cases acc with
    | nil => simp
    | cons a rest =>
      intro x hx
      simp only [List.cons_append, List.tail_cons] at hx
      rcases List.mem_append.mp hx with h1 | h1
      · exact h x (by simpa using h1)
      · rw [List.mem_singleton.mp h1]
        rcases hc with h2 | h2
        · exact h2
        · cases h2
  · rw [if_neg hc]
    push_neg at hc
    obtain ⟨hlen, hne⟩ := hc
    cases acc with
    | nil => exact absurd rfl hne
    | cons a rest =>
      cases hrest : rest with
      | nil =>
        simp [List.getLast?]
      | cons b rest2 =>
        subst hrest
        have hlast : (a :: b :: rest2).getLast? = some ((a :: b :: rest2).getLast (by simp)) :=
          List.getLast?_eq_getLast _ _
        rw [hlast]
        intro x hx
        simp only [List.dropLast_cons_of_ne_nil (List.cons_ne_nil b rest2),
          List.cons_append, List.tail_cons] at hx
        rcases List.mem_append.mp hx with h1 | h1
        · exact h x (List.mem_of_mem_dropLast h1)
        · rw [List.mem_singleton.mp h1]
          have heq : (a :: b :: rest2).getLast (by simp) = (b :: rest2).getLast (by simp) :=
            List.getLast_cons (by simp)
          have hmem : (a :: b :: rest2).getLast (by simp) ∈ b :: rest2 := by
            rw [heq]
            exact List.getLast_mem (by simp)
          have hmin : minCS ≤ strLen ((a :: b :: rest2).getLast (by simp)).1 :=
            h _ hmem
          calc minCS ≤ strLen ((a :: b :: rest2).getLast (by simp)).1 := hmin
            _ ≤ strLen (((a :: b :: rest2).getLast (by simp)).1 ++ ' ' :: c.1) :=
                strLen_append_ge_left _ _

theorem filterChunks_tail_inv (minCS : Int) (l : List Chunk) :
    ∀ acc, (∀ x ∈ acc.tail, minCS ≤ strLen x.1) →
      ∀ x ∈ (l.foldl (filterStep minCS) acc).tail, minCS ≤ strLen x.1 := by
  induction l with
  | nil => intro acc h; exact h
  | cons c rest ih =>
    intro acc h
    exact ih (filterStep minCS acc c) (filterStep_tail_inv minCS acc c h)

/-- C8: in the list returned by `split_markdown_into_chunks`, no chunk other
than possibly the first has text length below `min_chunk_size`: the
post-pass appends a chunk only when it is long enough (or first), and merges
every short chunk into the immediately preceding chunk, which only grows. -/
theorem c8_small_chunk_merge (sents : List Str) (minCS maxCS ov : Int) :
    ∀ c ∈ (splitSentences sents minCS maxCS ov).tail, minCS ≤ strLen c.1 :=
  filterChunks_tail_inv minCS (rawChunks sents maxCS ov) [] (by simp)

/-- Witness for C8: a concrete two-chunk run; the second chunk meets the
minimum. -/
theorem c8_small_chunk_merge_witness :
    (0 : Int) ≤ strLen (chars "Aaa bbb. Ccc ddd.") :=
  c8_small_chunk_merge [chars "Aaa bbb.", chars "Ccc ddd."] 0 10 3
    (chars "Aaa bbb. Ccc ddd.", 0, 17) (by decide)

theorem mkAcc_nil : mkAcc [] = [] := rfl

theorem mkAcc_cons (s : Str) (l : List Str) : mkAcc (s :: l) = s ++ ' ' :: mkAcc l := by
  unfold mkAcc
  simp

theorem sumLen_nil : sumLen [] = 0 := rfl

theorem sumLen_cons (s : Str) (l : List Str) :
    sumLen (s :: l) = strLen s + 1 + sumLen l := by
  unfold sumLen
  simp

/-- `collectGo` computes exactly the `mkAcc`/`sumLen` of the elements chosen
by the element-level walk. -/
theorem collectGo_greedy (ov : Int) : ∀ (rev tail : List Str),
    collectGo ov rev (mkAcc tail) (sumLen tail) =
      (mkAcc (greedyTailGo ov rev (sumLen tail) tail),
       sumLen (greedyTailGo ov rev (sumLen tail) tail)) := by
  intro rev
  induction rev with
  | nil => intro tail; rfl
  | cons s rest ih =>
    intro tail
    show collectGo ov (s :: rest) (mkAcc tail) (sumLen tail) = _
    unfold collectGo greedyTailGo
    by_cases h : sumLen tail < ov
    · rw [if_pos h, if_pos h]
      have h1 : mkAcc tail ≠ [] ∨ True := Or.inr trivial
      have hacc : s ++ ' ' :: mkAcc tail = mkAcc (s :: tail) := (mkAcc_cons s tail).symm
      have hlen : sumLen tail + strLen s + 1 = sumLen (s :: tail) := by
        rw [sumLen_cons]
        ring
      rw [hacc, hlen]
      exact ih (s :: tail)
    · rw [if_neg h, if_neg h]

/-- The element-level walk returns a reversed prefix of `rev` prepended to
the accumulator, i.e. a suffix of the original list; it is nonempty whenever
it can take a first element. -/
theorem greedyTailGo_spec (ov : Int) : ∀ (rev : List Str) (accLen : Int) (acc : List Str),
    ∃ j ≤ rev.length, greedyTailGo ov rev accLen acc = (rev.take j).reverse ++ acc ∧
      (accLen < ov → rev ≠ [] → 0 < j) := by
  intro rev
  induction rev with
  | nil =>
    intro accLen acc
    exact ⟨0, by simp, by simp [greedyTailGo], fun _ h => absurd rfl h⟩
  | cons s rest ih =>
    intro accLen acc
    by_cases h : accLen < ov
    · obtain ⟨j, hj, heq, _⟩ := ih (accLen + strLen s + 1) (s :: acc)
      refine ⟨j + 1, by simpa using hj, ?_, fun _ _ => Nat.succ_pos j⟩
      show greedyTailGo ov (s :: rest) accLen acc = _
      unfold greedyTailGo
      rw [if_pos h, heq]
      simp
    · refine ⟨0, by simp, ?_, fun hlt _ => absurd hlt h⟩
      show greedyTailGo ov (s :: rest) accLen acc = _
      unfold greedyTailGo
      rw [if_neg h]
      simp

/-- Splitting a separator-free string is the identity (one piece). -/
theorem splitOnChar_of_no_sep (c : Char) (s : Str) (h : ∀ x ∈ s, x ≠ c) :
    splitOnChar c s = [s] := by
  induction s with
  | nil => rfl
  | cons a rest ih =>
    have ha : a ≠ c := h a (by simp)
    have hr : splitOnChar c rest = [rest] := ih (fun x hx => h x (by simp [hx]))
    unfold splitOnChar
    rw [if_neg ha, hr]

theorem splitOnChar_sep_append (c : Char) (w t : Str) (h : ∀ x ∈ w, x ≠ c) :
    splitOnChar c (w ++ c :: t) = w :: splitOnChar c t := by
  induction w with
  | nil =>
    show splitOnChar c (c :: t) = [] :: splitOnChar c t
    rw [splitOnChar_cons_eq, if_pos rfl]
  | cons a rest ih =>
    have ha : a ≠ c := h a (by simp)
    have hr := ih (fun x hx => h x (by simp [hx]))
    show splitOnChar c (a :: (rest ++ c :: t)) = (a :: rest) :: splitOnChar c t
    rw [splitOnChar_cons_eq, if_neg ha, hr]

/-- Splitting a separator-join of separator-free pieces recovers the
pieces. -/
theorem splitOnChar_joinL (c : Char) (ws : List Str) (hne : ws ≠ [])
    (h : ∀ w ∈ ws, ∀ x ∈ w, x ≠ c) : splitOnChar c (joinL [c] ws) = ws := by
  induction ws with
  | nil => exact absurd rfl hne
  | cons w rest ih =>
    cases rest with
    | nil =>
      rw [joinL_single]
      exact splitOnChar_of_no_sep c w (h w (by simp))
    | cons w2 rest2 =>
      rw [joinL_cons_of_ne _ _ _ (by simp)]
      have : w ++ [c] ++ joinL [c] (w2 :: rest2) = w ++ c :: joinL [c] (w2 :: rest2) := by
        simp
      rw [this, splitOnChar_sep_append c w _ (h w (by simp)),
        ih (by simp) (fun w hw x hx => h w (by simp [hw]) x hx)]

/-- Joining the split pieces recovers the string, unconditionally. -/
theorem joinL_splitOnChar (c : Char) (s : Str) : joinL [c] (splitOnChar c s) = s := by
  induction s with
  | nil => rfl
  | cons a rest ih =>
    unfold splitOnChar
    by_cases h : a = c
    · rw [if_pos h, joinL_cons_of_ne _ _ _ (splitOnChar_ne_nil c rest), ih, h]
      simp
    · rw [if_neg h]
      cases hr : splitOnChar c rest with
      | nil => exact absurd hr (splitOnChar_ne_nil c rest)
      | cons p ps =>
        rw [hr] at ih
        cases ps with
        | nil =>
          rw [joinL_single] at ih ⊢
          rw [ih]
        | cons q qs =>
          rw [joinL_cons_of_ne _ _ _ (by simp)] at ih ⊢
          show a :: p ++ [c] ++ joinL [c] (q :: qs) = a :: rest
          rw [List.cons_append, List.cons_append, ih]

theorem lstrip_cons_of_word (c : Char) (x : Str) (h : pyWS c = false) :
    lstrip (c :: x) = c :: x := by
  unfold lstrip
  simp [h]

theorem rstrip_concat_of_word (x : Str) (c : Char) (h : pyWS c = false) :
    rstrip (x ++ [c]) = x ++ [c] := by
  unfold rstrip
  rw [List.reverse_append]
  simp [h]

theorem rstrip_concat_space (x : Str) : rstrip (x ++ [' ']) = rstrip x := by
  unfold rstrip
  rw [List.reverse_append]
  simp [pyWS]

theorem pyStrip_of_words (w : Str) (h : ∀ x ∈ w, wordChar x = true) :
    pyStrip w = w := by
  cases w with
  | nil => rfl
  | cons c rest =>
    have hc : pyWS c = false := by
      have := h c (by simp)
      unfold wordChar at this
      simpa using this
    unfold pyStrip
    rw [lstrip_cons_of_word c rest hc]
    rcases List.eq_nil_or_concat (c :: rest) with h1 | ⟨l0, b, h1⟩
    · cases h1
    · rw [List.concat_eq_append] at h1
      rw [h1]
      have hb : pyWS b = false := by
        have hmem : b ∈ c :: rest := by rw [h1]; simp
        have := h b hmem
        unfold wordChar at this
        simpa using this
      exact rstrip_concat_of_word l0 b hb

theorem cleanSent_unpack (s : Str) (h : cleanSent s = true) :
    s ≠ [] ∧ (∀ w ∈ splitOnChar ' ' s, w ≠ [] ∧ ∀ x ∈ w, wordChar x = true) := by
  unfold cleanSent at h
  simp only [Bool.and_eq_true, List.all_eq_true, decide_eq_true_eq] at h
  obtain ⟨h1, h2⟩ := h
  refine ⟨by simpa using h1, fun w hw => ?_⟩
  obtain ⟨hw1, hw2⟩ := h2 w hw
  exact ⟨by simpa using hw1, fun x hx => hw2 x hx⟩

theorem wordsOf_members (tail : List Str) (h : ∀ s ∈ tail, cleanSent s = true) :
    ∀ w ∈ wordsOf tail, w ≠ [] ∧ ∀ x ∈ w, wordChar x = true := by
  intro w hw
  unfold wordsOf at hw
  rw [List.mem_flatten] at hw
  obtain ⟨ws, hws, hwmem⟩ := hw
  rw [List.mem_map] at hws
  obtain ⟨s, hs, rfl⟩ := hws
  exact (cleanSent_unpack s (h s hs)).2 w hwmem

theorem wordsOf_ne_nil (tail : List Str) (hne : tail ≠ []) :
    wordsOf tail ≠ [] := by
  cases tail with
  | nil => exact absurd rfl hne
  | cons s rest =>
    unfold wordsOf
    simp only [List.map_cons, List.flatten_cons, ne_eq, List.append_eq_nil]
    intro ⟨h1, _⟩
    exact splitOnChar_ne_nil ' ' s h1

theorem joinL_words_eq (tail : List Str) (_h : ∀ s ∈ tail, cleanSent s = true) :
    joinL [' '] tail = joinL [' '] (wordsOf tail) := by
  have hmap : tail.map (fun s => joinL [' '] (splitOnChar ' ' s)) = tail := by
    rw [List.map_congr_left (fun s _ => joinL_splitOnChar ' ' s)]
    simp
  have := join_of_joins [' '] (tail.map (fun s => splitOnChar ' ' s))
    (fun g hg => by
      rw [List.mem_map] at hg
      obtain ⟨s, _, rfl⟩ := hg
      exact splitOnChar_ne_nil ' ' s)
  rw [List.map_map] at this
  show joinL [' '] tail = joinL [' '] ((tail.map (fun s => splitOnChar ' ' s)).flatten)
  rw [← this]
  congr 1
  exact hmap.symm

theorem mkAcc_eq_joinL (tail : List Str) (hne : tail ≠ []) :
    mkAcc tail = joinL [' '] tail ++ [' '] := by
  induction tail with
  | nil => exact absurd rfl hne
  | cons s rest ih =>
    cases rest with
    | nil => simp [mkAcc, joinL]
    | cons t rest2 =>
      rw [mkAcc_cons, ih (by simp), joinL_cons_of_ne [' '] s (t :: rest2) (by simp)]
      simp

theorem joinL_cons_decomp (sep : Str) (w : Str) (rest : List Str) :
    ∃ z, joinL sep (w :: rest) = w ++ z := by
  cases rest with
  | nil => exact ⟨[], by simp [joinL]⟩
  | cons t rest2 => exact ⟨sep ++ joinL sep (t :: rest2), by rw [joinL_cons_of_ne _ _ _ (by simp)]; simp⟩

theorem joinL_concat_decomp (sep : Str) (rest : List Str) (w : Str) :
    ∃ z, joinL sep (rest ++ [w]) = z ++ w := by
  cases rest with
  | nil => exact ⟨[], by simp [joinL]⟩
  | cons t rest2 =>
    refine ⟨joinL sep (t :: rest2) ++ sep, ?_⟩
    rw [joinL_append sep (t :: rest2) [w] (by simp) (by simp), joinL_single]

/-- Stripping `overlap_text` built from a nonempty list of clean elements
yields exactly their single-space join. -/
theorem pyStrip_mkAcc (tail : List Str) (h : ∀ s ∈ tail, cleanSent s = true)
    (hne : tail ≠ []) : pyStrip (mkAcc tail) = joinL [' '] tail := by
  have hW := wordsOf_members tail h
  have hWne := wordsOf_ne_nil tail hne
  have hkey : ∀ W : List Str, W ≠ [] →
      (∀ w ∈ W, w ≠ [] ∧ ∀ x ∈ w, wordChar x = true) →
      pyStrip (joinL [' '] W ++ [' ']) = joinL [' '] W := by
    intro W hWne2 hW2
    cases W with
    | nil => exact absurd rfl hWne2
    | cons w rest =>
      obtain ⟨hwne, hwchars⟩ := hW2 w (by simp)
      cases w with
      | nil => exact absurd rfl hwne
      | cons c w2 =>
        have hcw : pyWS c = false := by
          have := hwchars c (by simp)
          unfold wordChar at this
          simpa using this
        obtain ⟨z, hz⟩ := joinL_cons_decomp [' '] (c :: w2) rest
        have hhead : joinL [' '] ((c :: w2) :: rest) ++ [' '] =
            c :: (w2 ++ z ++ [' ']) := by
          rw [hz]
          simp
        unfold pyStrip
        rw [hhead, lstrip_cons_of_word c _ hcw, ← hhead, rstrip_concat_space]
        rcases List.eq_nil_or_concat ((c :: w2) :: rest) with hWnil | ⟨W0, wl, hWl⟩
        · cases hWnil
        · rw [List.concat_eq_append] at hWl
          obtain ⟨hwlne, hwlchars⟩ := hW2 wl (by rw [hWl]; simp)
          rcases List.eq_nil_or_concat wl with hwl | ⟨wl0, b, hwlc⟩
          · exact absurd hwl hwlne
          · rw [List.concat_eq_append] at hwlc
            have hb : pyWS b = false := by
              have := hwlchars b (by rw [hwlc]; simp)
              unfold wordChar at this
              simpa using this
            obtain ⟨z2, hz2⟩ := joinL_concat_decomp [' '] W0 wl
            rw [hWl, hz2, hwlc, ← List.append_assoc]
            exact rstrip_concat_of_word _ b hb
  rw [mkAcc_eq_joinL tail hne, joinL_words_eq tail h]
  exact hkey (wordsOf tail) hWne hW

theorem strLen_mkAcc (tail : List Str) : strLen (mkAcc tail) = sumLen tail := by
  induction tail with
  | nil => rfl
  | cons s rest ih =>
    rw [mkAcc_cons, sumLen_cons, ← ih]
    unfold strLen
    simp
    ring

theorem strLen_joinL (tail : List Str) (hne : tail ≠ []) :
    strLen (joinL [' '] tail) = sumLen tail - 1 := by
  induction tail with
  | nil => exact absurd rfl hne
  | cons s rest ih =>
    cases rest with
    | nil =>
      rw [joinL_single, sumLen_cons, sumLen_nil]
      ring
    | cons t rest2 =>
      have hih := ih (by simp)
      rw [joinL_cons_of_ne [' '] s (t :: rest2) (by simp), sumLen_cons]
      have hlen : strLen (s ++ [' '] ++ joinL [' '] (t :: rest2)) =
          strLen s + 1 + strLen (joinL [' '] (t :: rest2)) := by
        unfold strLen
        rw [List.length_append, List.length_append, List.length_singleton]
        push_cast
        ring
      rw [hlen, hih]
      ring

/-- `new_current` (`md_to_chunks.py` 126) applied to the overlap text of
clean elements is exactly their word list. -/
theorem newCur_eq_words (tail : List Str) (h : ∀ s ∈ tail, cleanSent s = true)
    (hne : tail ≠ []) :
    ((splitOnChar ' ' (mkAcc tail)).map pyStrip).filter (fun w => w ≠ []) =
      wordsOf tail := by
  have hW := wordsOf_members tail h
  have hWne := wordsOf_ne_nil tail hne
  have hsplit : splitOnChar ' ' (mkAcc tail) = wordsOf tail ++ [[]] := by
    rw [mkAcc_eq_joinL tail hne, joinL_words_eq tail h]
    have hjoin : joinL [' '] (wordsOf tail) ++ [' '] =
        joinL [' '] (wordsOf tail ++ [[]]) := by
      rw [joinL_append [' '] (wordsOf tail) [[]] hWne (by simp), joinL_single]
      simp
    rw [hjoin]
    refine splitOnChar_joinL ' ' (wordsOf tail ++ [[]]) (by simp) ?_
    intro w hw x hx
    rcases List.mem_append.mp hw with h1 | h1
    · have := (hW w h1).2 x hx
      unfold wordChar pyWS at this
      intro hxc
      rw [hxc] at this
      simp at this
    · rw [List.mem_singleton.mp h1] at hx
      cases hx
  rw [hsplit]
  rw [List.map_append, List.filter_append]
  have hmapW : (wordsOf tail).map pyStrip = wordsOf tail := by
    rw [List.map_congr_left (fun w hw => pyStrip_of_words w (hW w hw).2)]
    simp
  rw [hmapW]
  have hfW : (wordsOf tail).filter (fun w => w ≠ []) = wordsOf tail := by
    rw [List.filter_eq_self]
    intro w hw
    simpa using (hW w hw).1
  rw [hfW]
  have hnilpart : (([([] : Str)]).map pyStrip).filter (fun w => w ≠ []) = [] := rfl
  rw [hnilpart, List.append_nil]

/-- The join of the word list equals the join of the clean elements. -/
theorem joinL_wordsOf (tail : List Str) (h : ∀ s ∈ tail, cleanSent s = true) :
    joinL [' '] (wordsOf tail) = joinL [' '] tail :=
  (joinL_words_eq tail h).symm

/-- Every word of a clean element list is itself a clean element. -/
theorem wordsOf_clean (tail : List Str) (h : ∀ s ∈ tail, cleanSent s = true) :
    ∀ w ∈ wordsOf tail, cleanSent w = true := by
  intro w hw
  obtain ⟨hne, hchars⟩ := wordsOf_members tail h w hw
  unfold cleanSent
  have hsplit : splitOnChar ' ' w = [w] := by
    refine splitOnChar_of_no_sep ' ' w ?_
    intro x hx
    have := hchars x hx
    unfold wordChar pyWS at this
    intro hxc
    rw [hxc] at this
    simp at this
  rw [hsplit]
  simp only [Bool.and_eq_true, List.all_eq_true, List.mem_singleton]
  refine ⟨by simpa using hne, fun v hv => ?_⟩
  rw [hv]
  refine ⟨by simpa using hne, ?_⟩
  exact fun x hx => hchars x hx

/-! ## Claim C3: the overlap seed -/
/-- The overlap seed computed from a clean nonempty current chunk list: it
is the single-space join of the greedy element suffix, and the re-split word
list is exactly the words of that suffix. -/
theorem seed_of_clean (current : List Str) (ov : Int)
    (h : ∀ s ∈ current, cleanSent s = true) (hov : 1 ≤ ov) (hne : current ≠ []) :
    ∃ tail : List Str, tail ≠ [] ∧ (∃ j, j < current.length ∧ tail = current.drop j) ∧
      tail = greedyTailGo ov current.reverse 0 [] ∧
      (collectGo ov current.reverse [] 0).1 = mkAcc tail ∧
      ((splitOnChar ' ' (collectGo ov current.reverse [] 0).1).map pyStrip).filter
        (fun w => w ≠ []) = wordsOf tail ∧
      joinL [' '] (wordsOf tail) = joinL [' '] tail ∧
      pyStrip (collectGo ov current.reverse [] 0).1 = joinL [' '] tail := by
  obtain ⟨j, hj, heq, hpos⟩ := greedyTailGo_spec ov current.reverse 0 []
  rw [List.append_nil] at heq
  have hrevne : current.reverse ≠ [] := by
    simp only [ne_eq, List.reverse_eq_nil_iff]
    exact hne
  have hjpos : 0 < j := hpos (by omega) hrevne
  set tail := greedyTailGo ov current.reverse 0 [] with htail
  have htake : tail = (current.reverse.take j).reverse := heq
  have hdrop : tail = current.drop (current.length - j) := by
    rw [htake, List.reverse_take]
    simp
  have htailne : tail ≠ [] := by
    rw [htake]
    simp only [ne_eq, List.reverse_eq_nil_iff, List.take_eq_nil_iff]
    push_neg
    constructor
    · omega
    · exact hne
  have hclean_tail : ∀ s ∈ tail, cleanSent s = true := by
    intro s hs
    rw [hdrop] at hs
    exact h s (List.mem_of_mem_drop hs)
  have hcollect : collectGo ov current.reverse [] 0 = (mkAcc tail, sumLen tail) := by
    have := collectGo_greedy ov current.reverse []
    rw [mkAcc_nil, sumLen_nil] at this
    rw [this, htail]
  refine ⟨tail, htailne, ⟨current.length - j, ?_, hdrop⟩, rfl, ?_, ?_, ?_, ?_⟩
  · have hlen : j ≤ current.length := by simpa using hj
    omega
  · rw [hcollect]
  · rw [hcollect]
    exact newCur_eq_words tail hclean_tail htailne
  · exact joinL_wordsOf tail hclean_tail
  · rw [hcollect]
    exact pyStrip_mkAcc tail hclean_tail htailne

/-- Once the seeds list is nonempty its head never changes; before the first
boundary the current chunk is exactly the prefix of consumed sentences. -/
theorem mdLoop_first_seed (maxCS ov : Int) (hov : 1 ≤ ov) :
    ∀ (rest pre : List Str) (st : MDState),
      (∀ s ∈ pre ++ rest, cleanSent s = true) →
      ((st.seeds = [] ∧ st.current = pre) ∨
        (∃ hd tl, st.seeds = hd :: tl ∧ hd.2 ≤ pre.length ∧
          hd.1 = joinL [' '] (greedySuffix (pre.take hd.2) ov))) →
      ((mdLoop maxCS ov pre.length st rest).seeds = [] ∧
          (mdLoop maxCS ov pre.length st rest).current = pre ++ rest) ∨
        (∃ hd tl, (mdLoop maxCS ov pre.length st rest).seeds = hd :: tl ∧
          hd.2 ≤ (pre ++ rest).length ∧
          hd.1 = joinL [' '] (greedySuffix ((pre ++ rest).take hd.2) ov)) := by
  intro rest
  induction rest with
  | nil =>
    intro pre st hclean hinv
    simp only [List.append_nil]
    exact hinv
  | cons s rest2 ih =>
    intro pre st hclean hinv
    have hunfold : mdLoop maxCS ov pre.length st (s :: rest2) =
        mdLoop maxCS ov (pre ++ [s]).length (mdStep maxCS ov pre.length st s) rest2 := by
      have hl : (pre ++ [s]).length = pre.length + 1 := by simp
      rw [hl]
      rfl
    have happ : pre ++ s :: rest2 = (pre ++ [s]) ++ rest2 := by simp
    rw [hunfold, happ]
    apply ih (pre ++ [s]) (mdStep maxCS ov pre.length st s)
    · intro x hx
      apply hclean
      rw [happ]
      exact hx
    · rcases hinv with ⟨hseeds, hcur⟩ | ⟨hd, tl, hseeds, hle, hhd⟩
      · simp only [mdStep]
        by_cases hcond : maxCS < st.curLen + strLen s + 1 ∧ st.current ≠ []
        · rw [if_pos hcond]
          right
          have hpre_ne : pre ≠ [] := by
            rw [← hcur]
            exact hcond.2
          have hclean_pre : ∀ x ∈ pre, cleanSent x = true := by
            intro x hx
            exact hclean x (by simp [hx])
          obtain ⟨tail, htne, ⟨j, hj, hdropj⟩, hgreedy, hcoll, hsplit2, hjoinw, hstrip⟩ :=
            seed_of_clean pre ov hclean_pre hov hpre_ne
          refine ⟨(joinL [' ']
            (((splitOnChar ' ' (collectGo ov st.current.reverse [] 0).1).map pyStrip).filter
              (fun w => w ≠ [])), pre.length), [], ?_, ?_, ?_⟩
          · rw [hseeds]
            simp
          · simp
          · show joinL [' ']
              (((splitOnChar ' ' (collectGo ov st.current.reverse [] 0).1).map pyStrip).filter
                (fun w => w ≠ [])) =
              joinL [' '] (greedySuffix ((pre ++ [s]).take pre.length) ov)
            rw [hcur, hsplit2, hjoinw]
            have htakepre : (pre ++ [s]).take pre.length = pre := by
              rw [List.take_left]
            rw [htakepre]
            unfold greedySuffix
            rw [← hgreedy]
        · rw [if_neg hcond]
          left
          constructor
          · exact hseeds
          · show st.current ++ [s] = pre ++ [s]
            rw [hcur]
      · right
        simp only [mdStep]
        by_cases hcond : maxCS < st.curLen + strLen s + 1 ∧ st.current ≠ []
        · rw [if_pos hcond]
          refine ⟨hd, tl ++ [(joinL [' ']
              (((splitOnChar ' ' (collectGo ov st.current.reverse [] 0).1).map pyStrip).filter
                (fun w => w ≠ [])), pre.length)], ?_, ?_, ?_⟩
          · show st.seeds ++ [_] = _
            rw [hseeds]
            rfl
          · simp
            omega
          · have htk : (pre ++ [s]).take hd.2 = pre.take hd.2 :=
              List.take_append_of_le_length hle
            rw [htk]
            exact hhd
        · rw [if_neg hcond]
          refine ⟨hd, tl, hseeds, ?_, ?_⟩
          · simp
            omega
          · have htk : (pre ++ [s]).take hd.2 = pre.take hd.2 :=
              List.take_append_of_le_length hle
            rw [htk]
            exact hhd

/-- C3, counterexample: for the sentences `["a. b.", "a.", "a."]` with
`max_chunk_size = 5` and `overlap_chars = 5`, a later chunk boundary seeds
the next chunk with `"b. a."`, which is not the space-join of any suffix of
the sentences consumed up to that boundary — it cuts the sentence `"a. b."`
in half.  Sentence-aligned seeding therefore fails at later boundaries. -/
theorem c3_counterexample :
    ∃ p ∈ mdSeeds [chars "a. b.", chars "a.", chars "a."] 5 5,
      ∀ k ∈ List.range (p.2 + 1),
        p.1 ≠ joinL [' ']
          ((([chars "a. b.", chars "a.", chars "a."]).take p.2).drop (p.2 - k)) := by
  decide

/-- C3 (amended): at the FIRST chunk boundary — when the current chunk still
consists of whole input sentences — the next chunk is seeded with exactly
the greedy whole-sentence suffix of the sentences consumed so far (walking
backward until at least `overlap_chars` characters are collected), provided
the sentences are whitespace-clean and `overlap_chars ≥ 1`.  At later
boundaries the seed can cut a sentence (see the counterexample). -/
theorem c3_amended (sents : List Str) (maxCS ov : Int)
    (hclean : ∀ s ∈ sents, cleanSent s = true) (hov : 1 ≤ ov)
    (p : Str × Nat) (hp : (mdSeeds sents maxCS ov).head? = some p) :
    p.2 ≤ sents.length ∧ p.1 = joinL [' '] (greedySuffix (sents.take p.2) ov) := by
  have key := mdLoop_first_seed maxCS ov hov sents [] mdInit
    (by simpa using hclean) (Or.inl ⟨rfl, rfl⟩)
  simp only [List.nil_append, List.length_nil] at key
  rcases key with ⟨hs, _⟩ | ⟨hd, tl, hs, hle, hhd⟩
  · rw [mdSeeds, mdRun] at hp
    rw [hs] at hp
    cases hp
  · rw [mdSeeds, mdRun] at hp
    rw [hs] at hp
    simp only [List.head?_cons, Option.some.injEq] at hp
    rw [← hp]
    exact ⟨hle, hhd⟩

/-- Witness for the amended C3: a concrete run whose first boundary fires
after one sentence; the seed is that whole sentence. -/
theorem c3_amended_witness :
    (1 : Nat) ≤ [chars "Aaa bbb.", chars "Ccc ddd."].length ∧
    chars "Aaa bbb." =
      joinL [' '] (greedySuffix ([chars "Aaa bbb.", chars "Ccc ddd."].take 1) 3) :=
  c3_amended [chars "Aaa bbb.", chars "Ccc ddd."] 10 3 (by decide) (by decide)
    (chars "Aaa bbb.", 1) (by decide)

theorem lastEnd_append_single (cs : List Chunk) (x : Chunk) :
    lastEnd (cs ++ [x]) = x.2.2 := by
  induction cs with
  | nil => rfl
  | cons c rest ih =>
    cases rest with
    | nil => rfl
    | cons d rest2 => exact ih

theorem spanChain_append_single (cs : List Chunk) (x : Chunk) :
    spanChain (cs ++ [x]) ↔
      (spanChain cs ∧ ∀ c, cs.getLast? = some c → spanLink c x) := by
  induction cs with
  | nil => simp [spanChain]
  | cons c rest ih =>
    cases rest with
    | nil =>
      simp only [List.cons_append, List.nil_append, spanChain, List.getLast?_singleton,
        Option.some.injEq]
      constructor
      · rintro ⟨hl, -⟩
        exact ⟨trivial, fun d hd => hd ▸ hl⟩
      · rintro ⟨-, hl⟩
        exact ⟨hl c rfl, trivial⟩
    | cons d rest2 =>
      simp only [List.cons_append] at ih ⊢
      constructor
      · rintro ⟨hl, hrest⟩
        have := ih.mp hrest
        refine ⟨⟨hl, this.1⟩, fun e he => this.2 e ?_⟩
        rw [← he]
        symm
        exact List.getLast?_cons_cons
      · rintro ⟨⟨hl, hchain⟩, hlast⟩
        refine ⟨hl, ih.mpr ⟨hchain, fun e he => hlast e ?_⟩⟩
        rw [List.getLast?_cons_cons]
        exact he

theorem segN_full (N : Str) : segN N 0 (strLen N) = N := by
  unfold segN strLen
  simp

theorem segN_take (N : Str) (a x b : Int) (_ha : 0 ≤ a) (_hax : a ≤ x) (hxb : x ≤ b) :
    (segN N a b).take (x - a).toNat = segN N a x := by
  unfold segN
  rw [List.take_take]
  congr 1
  omega

theorem segN_append_seg (N : Str) (a x y : Int) (ha : 0 ≤ a) (hax : a ≤ x) (hxy : x ≤ y) :
    segN N a x ++ segN N x y = segN N a y := by
  unfold segN
  have hdrop : N.drop x.toNat = (N.drop a.toNat).drop (x - a).toNat := by
    rw [List.drop_drop]
    congr 1
    omega
  rw [hdrop, ← List.take_add]  -- take i l ++ take j (drop i l) = take (i+j) l
  congr 1
  omega

theorem segN_stable (N M : Str) (a b : Int) (ha : 0 ≤ a) (hb : b ≤ strLen N) :
    segN (N ++ M) a b = segN N a b := by
  unfold segN strLen at *
  by_cases hab : a ≤ b
  · have ha' : a.toNat ≤ N.length := by omega
    rw [List.drop_append_of_le_length ha', List.take_append_of_le_length]
    rw [List.length_drop]
    omega
  · have : (b - a).toNat = 0 := by omega
    rw [this]
    simp

theorem lastEnd_ge (c : Chunk) (cs : List Chunk) (h : spanChain (c :: cs)) :
    c.2.2 ≤ lastEnd (c :: cs) := by
  induction cs generalizing c with
  | nil => exact le_refl _
  | cons d rest ih =>
    obtain ⟨hl, hchain⟩ := h
    calc c.2.2 ≤ d.2.2 := hl.2.2
      _ ≤ lastEnd (d :: rest) := ih d hchain
      _ = lastEnd (c :: d :: rest) := rfl

/-- Concatenating the non-overlapping prefixes of a chained list of segments
reconstructs the covered segment. -/
theorem reconstruct_eq_seg (N : Str) : ∀ cs : List Chunk, cs ≠ [] →
    chunksSeg N cs → spanChain cs →
    reconstructChunks cs = segN N (firstStart cs) (lastEnd cs) := by
  intro cs
  induction cs with
  | nil => intro h; exact absurd rfl h
  | cons c rest ih =>
    intro _ hseg hchain
    cases rest with
    | nil =>
      obtain ⟨_, _, _, hs⟩ := hseg c (by simp)
      exact hs.symm
    | cons d rest2 =>
      obtain ⟨hl, hchain2⟩ := hchain
      obtain ⟨hc0, hcb, hcN, hcs⟩ := hseg c (by simp)
      obtain ⟨hd0, hdb, hdN, hds⟩ := hseg d (by simp)
      have hrec : reconstructChunks (d :: rest2) =
          segN N (firstStart (d :: rest2)) (lastEnd (d :: rest2)) :=
        ih (by simp) (fun x hx => hseg x (by simp [hx])) hchain2
      show c.1.take (d.2.1 - c.2.1).toNat ++ reconstructChunks (d :: rest2) = _
      rw [hrec]
      have htake : c.1.take (d.2.1 - c.2.1).toNat = segN N c.2.1 d.2.1 := by
        rw [← hcs]
        exact segN_take N c.2.1 d.2.1 c.2.2 hc0 hl.1 hl.2.1
      rw [htake]
      show segN N c.2.1 d.2.1 ++ segN N d.2.1 (lastEnd (d :: rest2)) =
        segN N (firstStart (c :: d :: rest2)) (lastEnd (c :: d :: rest2))
      have hE : d.2.1 ≤ lastEnd (d :: rest2) := by
        have h1 : d.2.1 ≤ d.2.2 := by
          rw [hdb]
          have : 0 ≤ strLen d.1 := by unfold strLen; positivity
          omega
        exact le_trans h1 (lastEnd_ge d rest2 hchain2)
      exact segN_append_seg N c.2.1 d.2.1 (lastEnd (d :: rest2)) hc0 hl.1 hE

/-- A chained span list starting at or before `x` and ending after `x`
covers `x`. -/
theorem coverage_of_chain : ∀ cs : List Chunk, cs ≠ [] → spanChain cs →
    ∀ x : Int, firstStart cs ≤ x → x < lastEnd cs → coveredBy cs x := by
  intro cs
  induction cs with
  | nil => intro h; exact absurd rfl h
  | cons c rest ih =>
    intro _ hchain x hfs hle
    by_cases hx : x < c.2.2
    · exact ⟨c, by simp, hfs, hx⟩
    · push_neg at hx
      cases rest with
      | nil => exact absurd hle (by simpa [lastEnd] using not_lt.mpr hx)
      | cons d rest2 =>
        obtain ⟨hl, hchain2⟩ := hchain
        have hcov : coveredBy (d :: rest2) x := by
          apply ih (by simp) hchain2 x
          · exact le_trans hl.2.1 hx
          · exact hle
        obtain ⟨e, he, h1, h2⟩ := hcov
        exact ⟨e, by simp [he], h1, h2⟩

theorem strLen_nonneg (s : Str) : 0 ≤ strLen s := by
  unfold strLen
  positivity

theorem strLen_append_cons (x : Str) (c : Char) (y : Str) :
    strLen (x ++ c :: y) = strLen x + 1 + strLen y := by
  unfold strLen
  rw [List.length_append, List.length_cons]
  push_cast
  ring

theorem spanChain_grow_last (cs : List Chunk) (x y : Chunk)
    (h : spanChain (cs ++ [x])) (h1 : y.2.1 = x.2.1) (h2 : x.2.2 ≤ y.2.2) :
    spanChain (cs ++ [y]) := by
  rw [spanChain_append_single] at h ⊢
  obtain ⟨hc, hl⟩ := h
  refine ⟨hc, fun c hcl => ?_⟩
  obtain ⟨l1, l2, l3⟩ := hl c hcl
  exact ⟨by rw [h1]; exact l1, by rw [h1]; exact l2, le_trans l3 h2⟩

theorem firstStart_append_single (cs : List Chunk) (x : Chunk) :
    firstStart (cs ++ [x]) = if cs = [] then x.2.1 else firstStart cs := by
  cases cs with
  | nil => simp [firstStart]
  | cons c rest => simp [firstStart]

/-- Dropping everything but the suffix join: if `tail` is a nonempty suffix
of `current`, the join of `current` ends with the join of `tail`. -/
theorem joinL_drop_suffix (current tail : List Str) (j : Nat) (hj : j < current.length)
    (hdrop : tail = current.drop j) :
    strLen (joinL [' '] tail) ≤ strLen (joinL [' '] current) ∧
    (joinL [' '] current).drop
      ((strLen (joinL [' '] current) - strLen (joinL [' '] tail)).toNat) =
      joinL [' '] tail := by
  cases hjz : j with
  | zero =>
    subst hjz
    simp only [List.drop_zero] at hdrop
    subst hdrop
    constructor
    · exact le_refl _
    · simp
  | succ j0 =>
    have hj1 : 1 ≤ j := by omega
    have htake_ne : current.take j ≠ [] := by
      simp only [ne_eq, List.take_eq_nil_iff]
      push_neg
      constructor
      · omega
      · intro hc
        rw [hc] at hj
        simp at hj
    have htail_ne : tail ≠ [] := by
      rw [hdrop]
      simp only [ne_eq, List.drop_eq_nil_iff]
      omega
    have hsplit : current = current.take j ++ tail := by
      rw [hdrop, List.take_append_drop]
    have hjoin : joinL [' '] current =
        (joinL [' '] (current.take j) ++ [' ']) ++ joinL [' '] tail := by
      conv_lhs => rw [hsplit]
      rw [joinL_append [' '] (current.take j) tail htake_ne htail_ne]
    constructor
    · rw [hjoin]
      unfold strLen
      rw [List.length_append, List.length_append]
      push_cast
      omega
    · rw [hjoin]
      have hlen : ((strLen ((joinL [' '] (current.take j) ++ [' ']) ++ joinL [' '] tail) -
          strLen (joinL [' '] tail)).toNat) =
          (joinL [' '] (current.take j) ++ [' ']).length := by
        unfold strLen
        rw [List.length_append]
        push_cast
        omega
      rw [hlen, List.drop_left]

theorem mdStep_LoopOK (maxCS ov : Int) (hov : 1 ≤ ov) (i : Nat) (pre : List Str)
    (s : Str) (st : MDState) (_hcleanp : ∀ e ∈ pre, cleanSent e = true)
    (hs : cleanSent s = true) (h : LoopOK pre st) :
    LoopOK (pre ++ [s]) (mdStep maxCS ov i st s) := by
  have hsne : s ≠ [] := by
    unfold cleanSent at hs
    simp only [Bool.and_eq_true, decide_eq_true_eq] at hs
    simpa using hs.1
  simp only [mdStep]
  by_cases hcond : maxCS < st.curLen + strLen s + 1 ∧ st.current ≠ []
  · -- chunk boundary: close the pending chunk and seed the next one
    rw [if_pos hcond]
    rcases h with ⟨hpre, hch, hcur, hsp⟩ | ⟨hpre, hcurne, hclean, hsp0, hdropEq, hlenEq, hseg, hchain, hfs⟩
    · exact absurd hcur hcond.2
    obtain ⟨tail, htailne, ⟨j, hjlt, hdropj⟩, hgreedy, hcoll, hsplitw, hjoinw, hstrip⟩ :=
      seed_of_clean st.current ov hclean hov hcond.2
    have hwne : wordsOf tail ≠ [] := wordsOf_ne_nil tail htailne
    have hwclean : ∀ w ∈ wordsOf tail, cleanSent w = true := by
      apply wordsOf_clean
      intro x hx
      rw [hdropj] at hx
      exact hclean x (List.mem_of_mem_drop hx)
    obtain ⟨hLle, hdropJ⟩ := joinL_drop_suffix st.current tail j hjlt hdropj
    have hL0 : 0 ≤ strLen (joinL [' '] tail) := strLen_nonneg _
    have hJpre' : joinL [' '] (pre ++ [s]) = joinL [' '] pre ++ ' ' :: s := by
      rw [joinL_append [' '] pre [s] hpre (by simp), joinL_single]
      simp
    have hnewlen : strLen (pyStrip (collectGo ov st.current.reverse [] 0).1) =
        strLen (joinL [' '] tail) := by rw [hstrip]
    have hcur_join : joinL [' '] (((splitOnChar ' '
        (collectGo ov st.current.reverse [] 0).1).map pyStrip).filter (fun w => w ≠ []) ++ [s]) =
        joinL [' '] tail ++ ' ' :: s := by
      rw [hsplitw, joinL_append [' '] (wordsOf tail) [s] hwne (by simp), joinL_single, hjoinw]
      simp
    right
    refine ⟨by simp, ?_, ?_, ?_, ?_, ?_, ?_, ?_, ?_⟩
    · show ((splitOnChar ' ' (collectGo ov st.current.reverse [] 0).1).map pyStrip).filter
        (fun w => w ≠ []) ++ [s] ≠ []
      simp
    · show ∀ e ∈ ((splitOnChar ' ' (collectGo ov st.current.reverse [] 0).1).map pyStrip).filter
        (fun w => w ≠ []) ++ [s], cleanSent e = true
      intro e he
      rcases List.mem_append.mp he with h1 | h1
      · rw [hsplitw] at h1
        exact hwclean e h1
      · rw [List.mem_singleton.mp h1]
        exact hs
    · show 0 ≤ st.startPos + strLen (joinL [' '] st.current) -
        strLen (pyStrip (collectGo ov st.current.reverse [] 0).1)
      rw [hnewlen]
      omega
    · show joinL [' '] (((splitOnChar ' '
          (collectGo ov st.current.reverse [] 0).1).map pyStrip).filter (fun w => w ≠ []) ++ [s]) =
        (joinL [' '] (pre ++ [s])).drop (st.startPos + strLen (joinL [' '] st.current) -
          strLen (pyStrip (collectGo ov st.current.reverse [] 0).1)).toNat
      rw [hcur_join, hnewlen, hJpre']
      have hble : (st.startPos + strLen (joinL [' '] st.current) -
          strLen (joinL [' '] tail)).toNat ≤ (joinL [' '] pre).length := by
        have := strLen_nonneg (joinL [' '] pre)
        unfold strLen at hlenEq ⊢
        omega
      rw [List.drop_append_of_le_length hble]
      congr 1
      have hdd : (joinL [' '] pre).drop (st.startPos + strLen (joinL [' '] st.current) -
          strLen (joinL [' '] tail)).toNat =
          ((joinL [' '] pre).drop st.startPos.toNat).drop
            ((strLen (joinL [' '] st.current) - strLen (joinL [' '] tail)).toNat) := by
        rw [List.drop_drop]
        congr 1
        omega
      rw [hdd, ← hdropEq, hdropJ]
    · show st.startPos + strLen (joinL [' '] st.current) -
          strLen (pyStrip (collectGo ov st.current.reverse [] 0).1) +
          strLen (joinL [' '] (((splitOnChar ' '
            (collectGo ov st.current.reverse [] 0).1).map pyStrip).filter (fun w => w ≠ []) ++ [s])) =
        strLen (joinL [' '] (pre ++ [s]))
      rw [hcur_join, hnewlen, hJpre', strLen_append_cons, strLen_append_cons]
      omega
    · show chunksSeg (joinL [' '] (pre ++ [s])) (st.chunks ++
        [(joinL [' '] st.current, st.startPos,
          st.startPos + strLen (joinL [' '] st.current))])
      intro c hc
      rcases List.mem_append.mp hc with h1 | h1
      · obtain ⟨g1, g2, g3, g4⟩ := hseg c h1
        refine ⟨g1, g2, ?_, ?_⟩
        · rw [hJpre', strLen_append_cons]
          have := strLen_nonneg s
          omega
        · rw [hJpre', segN_stable _ _ _ _ g1 g3]
          exact g4
      · rw [List.mem_singleton.mp h1]
        refine ⟨hsp0, rfl, ?_, ?_⟩
        · show st.startPos + strLen (joinL [' '] st.current) ≤
            strLen (joinL [' '] (pre ++ [s]))
          rw [hJpre', strLen_append_cons]
          have := strLen_nonneg s
          omega
        · rw [hJpre']
          have hstable : segN (joinL [' '] pre ++ ' ' :: s) st.startPos
              (st.startPos + strLen (joinL [' '] st.current)) =
              segN (joinL [' '] pre) st.startPos
                (st.startPos + strLen (joinL [' '] st.current)) := by
            apply segN_stable _ _ _ _ hsp0
            omega
          rw [hstable]
          unfold segN
          rw [← hdropEq]
          have : (st.startPos + strLen (joinL [' '] st.current) - st.startPos).toNat =
              (joinL [' '] st.current).length := by
            unfold strLen
            omega
          rw [this, List.take_length]
    · show spanChain ((st.chunks ++ [(joinL [' '] st.current, st.startPos,
          st.startPos + strLen (joinL [' '] st.current))]) ++ [_])
      rw [spanChain_append_single]
      refine ⟨hchain, fun c hcl => ?_⟩
      rw [List.getLast?_concat] at hcl
      injection hcl with hcl
      rw [← hcl]
      refine ⟨?_, ?_, ?_⟩
      · show st.startPos ≤ st.startPos + strLen (joinL [' '] st.current) -
          strLen (pyStrip (collectGo ov st.current.reverse [] 0).1)
        rw [hnewlen]
        omega
      · show st.startPos + strLen (joinL [' '] st.current) -
          strLen (pyStrip (collectGo ov st.current.reverse [] 0).1) ≤
          st.startPos + strLen (joinL [' '] st.current)
        rw [hnewlen]
        omega
      · show st.startPos + strLen (joinL [' '] st.current) ≤
          st.startPos + strLen (joinL [' '] st.current) -
            strLen (pyStrip (collectGo ov st.current.reverse [] 0).1) +
            strLen (joinL [' '] (((splitOnChar ' '
              (collectGo ov st.current.reverse [] 0).1).map pyStrip).filter
                (fun w => w ≠ []) ++ [s]))
        rw [hcur_join, hnewlen]
        have h1 : strLen (joinL [' '] tail ++ ' ' :: s) =
            strLen (joinL [' '] tail) + 1 + strLen s := strLen_append_cons _ ' ' s
        rw [h1]
        have := strLen_nonneg s
        omega
    · show firstStart ((st.chunks ++ [(joinL [' '] st.current, st.startPos,
          st.startPos + strLen (joinL [' '] st.current))]) ++ [_]) = 0
      rw [firstStart_append_single]
      rw [if_neg (by simp)]
      exact hfs
  · -- no boundary: append the sentence to the pending chunk
    rw [if_neg hcond]
    rcases h with ⟨hpre, hch, hcur, hsp⟩ | ⟨hpre, hcurne, hclean, hsp0, hdropEq, hlenEq, hseg, hchain, hfs⟩
    · right
      refine ⟨by simp, ?_, ?_, ?_, ?_, ?_, ?_, ?_, ?_⟩
      · show st.current ++ [s] ≠ []
        simp
      · show ∀ e ∈ st.current ++ [s], cleanSent e = true
        intro e he
        rw [hcur] at he
        have he2 : e = s := by simpa using he
        rw [he2]
        exact hs
      · show 0 ≤ st.startPos
        rw [hsp]
      · show joinL [' '] (st.current ++ [s]) =
          (joinL [' '] (pre ++ [s])).drop st.startPos.toNat
        rw [hcur, hpre, hsp]
        simp [joinL]
      · show st.startPos + strLen (joinL [' '] (st.current ++ [s])) =
          strLen (joinL [' '] (pre ++ [s]))
        rw [hcur, hpre, hsp]
        simp [joinL]
      · show chunksSeg (joinL [' '] (pre ++ [s])) st.chunks
        rw [hch]
        intro c hc
        cases hc
      · show spanChain (st.chunks ++ [_])
        rw [hch]
        exact trivial
      · show firstStart (st.chunks ++ [(joinL [' '] (st.current ++ [s]), st.startPos, _)]) = 0
        rw [hch, hsp]
        rfl
    · right
      have hJpre' : joinL [' '] (pre ++ [s]) = joinL [' '] pre ++ ' ' :: s := by
        rw [joinL_append [' '] pre [s] hpre (by simp), joinL_single]
        simp
      have hJcur' : joinL [' '] (st.current ++ [s]) = joinL [' '] st.current ++ ' ' :: s := by
        rw [joinL_append [' '] st.current [s] hcurne (by simp), joinL_single]
        simp
      refine ⟨by simp, ?_, ?_, ?_, ?_, ?_, ?_, ?_, ?_⟩
      · show st.current ++ [s] ≠ []
        simp
      · show ∀ e ∈ st.current ++ [s], cleanSent e = true
        intro e he
        rcases List.mem_append.mp he with h1 | h1
        · exact hclean e h1
        · rw [List.mem_singleton.mp h1]
          exact hs
      · exact hsp0
      · show joinL [' '] (st.current ++ [s]) =
          (joinL [' '] (pre ++ [s])).drop st.startPos.toNat
        rw [hJcur', hJpre']
        have hble : st.startPos.toNat ≤ (joinL [' '] pre).length := by
          have := strLen_nonneg (joinL [' '] st.current)
          unfold strLen at hlenEq
          omega
        rw [List.drop_append_of_le_length hble, ← hdropEq]
      · show st.startPos + strLen (joinL [' '] (st.current ++ [s])) =
          strLen (joinL [' '] (pre ++ [s]))
        rw [hJcur', hJpre', strLen_append_cons, strLen_append_cons]
        omega
      · show chunksSeg (joinL [' '] (pre ++ [s])) st.chunks
        intro c hc
        obtain ⟨g1, g2, g3, g4⟩ := hseg c hc
        refine ⟨g1, g2, ?_, ?_⟩
        · rw [hJpre', strLen_append_cons]
          have := strLen_nonneg s
          omega
        · rw [hJpre', segN_stable _ _ _ _ g1 g3]
          exact g4
      · show spanChain (st.chunks ++ [(joinL [' '] (st.current ++ [s]), st.startPos,
          st.startPos + strLen (joinL [' '] (st.current ++ [s])))])
        refine spanChain_grow_last st.chunks
          (joinL [' '] st.current, st.startPos,
            st.startPos + strLen (joinL [' '] st.current))
          (joinL [' '] (st.current ++ [s]), st.startPos,
            st.startPos + strLen (joinL [' '] (st.current ++ [s])))
          hchain rfl ?_
        show st.startPos + strLen (joinL [' '] st.current) ≤
          st.startPos + strLen (joinL [' '] (st.current ++ [s]))
        rw [hJcur', strLen_append_cons]
        have := strLen_nonneg s
        omega
      · show firstStart (st.chunks ++ [(joinL [' '] (st.current ++ [s]), st.startPos,
          st.startPos + strLen (joinL [' '] (st.current ++ [s])))]) = 0
        rw [firstStart_append_single]
        rw [firstStart_append_single] at hfs
        by_cases hchn : st.chunks = []
        · rw [if_pos hchn]
          rw [if_pos hchn] at hfs
          exact hfs
        · rw [if_neg hchn]
          rw [if_neg hchn] at hfs
          exact hfs

theorem mdLoop_LoopOK (maxCS ov : Int) (hov : 1 ≤ ov) :
    ∀ (rest pre : List Str) (st : MDState),
      (∀ e ∈ pre ++ rest, cleanSent e = true) → LoopOK pre st →
      LoopOK (pre ++ rest) (mdLoop maxCS ov pre.length st rest) := by
  intro rest
  induction rest with
  | nil =>
    intro pre st _ h
    simpa using h
  | cons s rest2 ih =>
    intro pre st hclean h
    have hunfold : mdLoop maxCS ov pre.length st (s :: rest2) =
        mdLoop maxCS ov (pre ++ [s]).length (mdStep maxCS ov pre.length st s) rest2 := by
      have hl : (pre ++ [s]).length = pre.length + 1 := by simp
      rw [hl]
      rfl
    have happ : pre ++ s :: rest2 = (pre ++ [s]) ++ rest2 := by simp
    rw [hunfold, happ]
    apply ih (pre ++ [s])
    · intro x hx
      apply hclean
      rw [happ]
      exact hx
    · exact mdStep_LoopOK maxCS ov hov pre.length pre s st
        (fun e he => hclean e (by simp [he])) (hclean s (by simp)) h

theorem lastEnd_eq_of_getLast? : ∀ (l : List Chunk) (c : Chunk),
    l.getLast? = some c → lastEnd l = c.2.2 := by
  intro l
  induction l with
  | nil => intro c hc; cases hc
  | cons d rest ih =>
    intro c hc
    cases rest with
    | nil =>
      simp only [List.getLast?_singleton, Option.some.injEq] at hc
      rw [← hc]
      rfl
    | cons e rest2 =>
      rw [List.getLast?_cons_cons] at hc
      exact ih c hc

/-- The invariant transported to the raw chunk list. -/
theorem rawChunks_spec (sents : List Str) (maxCS ov : Int)
    (hclean : ∀ s ∈ sents, cleanSent s = true) (hov : 1 ≤ ov) :
    chunksSeg (joinL [' '] sents) (rawChunks sents maxCS ov) ∧
    spanChain (rawChunks sents maxCS ov) ∧
    firstStart (rawChunks sents maxCS ov) = 0 ∧
    (rawChunks sents maxCS ov = [] → sents = []) ∧
    (rawChunks sents maxCS ov ≠ [] →
      lastEnd (rawChunks sents maxCS ov) = strLen (joinL [' '] sents)) := by
  have key := mdLoop_LoopOK maxCS ov hov sents [] mdInit
    (by simpa using hclean) (Or.inl ⟨rfl, rfl, rfl, rfl⟩)
  simp only [List.nil_append, List.length_nil] at key
  unfold rawChunks mdRun
  rcases key with ⟨hpre, hch, hcur, _⟩ | ⟨hpre, hcurne, _, hsp0, hdropEq, hlenEq, hseg, hchain, hfs⟩
  · rw [if_neg (by rw [hcur]; simp), hch]
    refine ⟨fun c hc => absurd hc (by simp), trivial, rfl, fun _ => hpre, fun h => absurd rfl h⟩
  · rw [if_pos hcurne]
    refine ⟨?_, hchain, hfs, ?_, ?_⟩
    · intro c hc
      rcases List.mem_append.mp hc with h1 | h1
      · exact hseg c h1
      · rw [List.mem_singleton.mp h1]
        refine ⟨hsp0, rfl, le_of_eq hlenEq, ?_⟩
        unfold segN
        rw [← hdropEq]
        have : (mdLoop maxCS ov 0 mdInit sents).startPos +
            strLen (joinL [' '] (mdLoop maxCS ov 0 mdInit sents).current) -
            (mdLoop maxCS ov 0 mdInit sents).startPos = 
            strLen (joinL [' '] (mdLoop maxCS ov 0 mdInit sents).current) := by
          ring
        rw [this]
        have h2 : (strLen (joinL [' '] (mdLoop maxCS ov 0 mdInit sents).current)).toNat =
            (joinL [' '] (mdLoop maxCS ov 0 mdInit sents).current).length := by
          unfold strLen
          omega
        rw [h2, List.take_length]
    · intro h
      exact absurd h (by simp)
    · intro _
      rw [lastEnd_append_single]
      exact hlenEq

/-- Under `min_chunk_size` the post-pass is the identity. -/
theorem filterChunks_id (minCS : Int) (l : List Chunk)
    (h : ∀ c ∈ l, minCS ≤ strLen c.1) : filterChunks minCS l = l := by
  unfold filterChunks
  have gen : ∀ (l2 acc : List Chunk), (∀ c ∈ l2, minCS ≤ strLen c.1) →
      l2.foldl (filterStep minCS) acc = acc ++ l2 := by
    intro l2
    induction l2 with
    | nil => intro acc _; simp
    | cons c rest ih =>
      intro acc hh
      have hstep : filterStep minCS acc c = acc ++ [c] := by
        unfold filterStep
        rw [if_pos (Or.inl (hh c (by simp)))]
      simp only [List.foldl_cons, hstep]
      rw [ih (acc ++ [c]) (fun x hx => hh x (by simp [hx]))]
      simp
  rw [gen l [] h]
  simp

/-- The post-pass preserves the chain, the zero first start, and the last
end (merging only extends the previous chunk's span to the right). -/
theorem filter_fold_pres (minCS : Int) : ∀ (l acc : List Chunk) (la : Chunk),
    acc.getLast? = some la → spanChain acc → firstStart acc = 0 →
    spanChain (la :: l) →
    ∃ lr, (l.foldl (filterStep minCS) acc).getLast? = some lr ∧
      spanChain (l.foldl (filterStep minCS) acc) ∧
      firstStart (l.foldl (filterStep minCS) acc) = 0 ∧
      lr.2.2 = lastEnd (la :: l) := by
  intro l
  induction l with
  | nil =>
    intro acc la hlast hchain hfs _
    exact ⟨la, hlast, hchain, hfs, rfl⟩
  | cons c rest ih =>
    intro acc la hlast hchain hfs hcl
    obtain ⟨hlink, hcrest⟩ := hcl
    by_cases hc : minCS ≤ strLen c.1 ∨ acc = []
    · have hstep : filterStep minCS acc c = acc ++ [c] := by
        unfold filterStep
        rw [if_pos hc]
      simp only [List.foldl_cons, hstep]
      have hne : acc ≠ [] := by
        intro h0
        rw [h0] at hlast
        cases hlast
      have hchain2 : spanChain (acc ++ [c]) := by
        rw [spanChain_append_single]
        refine ⟨hchain, fun d hd => ?_⟩
        rw [hlast] at hd
        injection hd with hd
        rw [← hd]
        exact hlink
      have hfs2 : firstStart (acc ++ [c]) = 0 := by
        rw [firstStart_append_single, if_neg hne]
        exact hfs
      obtain ⟨lr, e1, e2, e3, e4⟩ := ih (acc ++ [c]) c (List.getLast?_concat _) hchain2 hfs2 hcrest
      exact ⟨lr, e1, e2, e3, by rw [e4]; rfl⟩
    · push_neg at hc
      obtain ⟨hlen, hne⟩ := hc
      have hstep : filterStep minCS acc c =
          acc.dropLast ++ [(la.1 ++ ' ' :: c.1, la.2.1, c.2.2)] := by
        unfold filterStep
        rw [if_neg (by push_neg; exact ⟨hlen, hne⟩), hlast]
      simp only [List.foldl_cons, hstep]
      have hla2 : acc.getLast hne = la := by
        have h2 := (List.getLast?_eq_getLast acc hne).symm.trans hlast
        exact Option.some_injective _ h2
      have hacc : acc = acc.dropLast ++ [la] := by
        rw [← hla2]
        exact (List.dropLast_append_getLast hne).symm
      have hchain2 : spanChain (acc.dropLast ++ [la]) := by
        rw [← hacc]
        exact hchain
      obtain ⟨hcdrop, hlinkdrop⟩ := (spanChain_append_single _ la).mp hchain2
      have hchainm : spanChain (acc.dropLast ++ [(la.1 ++ ' ' :: c.1, la.2.1, c.2.2)]) := by
        rw [spanChain_append_single]
        refine ⟨hcdrop, fun d hd => ?_⟩
        obtain ⟨l1, l2, l3⟩ := hlinkdrop d hd
        exact ⟨l1, l2, le_trans l3 hlink.2.2⟩
      have hfsm : firstStart (acc.dropLast ++ [(la.1 ++ ' ' :: c.1, la.2.1, c.2.2)]) = 0 := by
        rw [firstStart_append_single]
        by_cases hdl : acc.dropLast = []
        · rw [if_pos hdl]
          have hacc2 : acc = [la] := by
            rw [hacc, hdl]
            rfl
          rw [hacc2] at hfs
          exact hfs
        · rw [if_neg hdl]
          have heq : firstStart acc = firstStart acc.dropLast := by
            conv_lhs => rw [hacc]
            rw [firstStart_append_single, if_neg hdl]
          rw [← heq]
          exact hfs
      have hcmrest : spanChain ((la.1 ++ ' ' :: c.1, la.2.1, c.2.2) :: rest) := by
        cases rest with
        | nil => trivial
        | cons r rest2 =>
          obtain ⟨hcr, hrest2⟩ := hcrest
          exact ⟨⟨le_trans hlink.1 hcr.1, hcr.2.1, hcr.2.2⟩, hrest2⟩
      obtain ⟨lr, e1, e2, e3, e4⟩ := ih (acc.dropLast ++ [(la.1 ++ ' ' :: c.1, la.2.1, c.2.2)])
        (la.1 ++ ' ' :: c.1, la.2.1, c.2.2) (List.getLast?_concat _) hchainm hfsm hcmrest
      refine ⟨lr, e1, e2, e3, ?_⟩
      rw [e4]
      cases rest with
      | nil => rfl
      | cons r rest2 => rfl

/-- C1, counterexample: the tokenizer contract allows a newline separator
(`"Aaa.\nBbb."`), but the chunker joins sentences with single spaces, so the
reconstruction yields `"Aaa. Bbb."`, not the normalized input. -/
theorem c1_counterexample :
    ∃ (text : Str) (tok : Str → List Str),
      IsTokenization (normalize text) (tok (normalize text)) ∧
      reconstructChunks (split_markdown_into_chunks tok text 0 100 1) ≠
        normalize text := by
  refine ⟨chars "Aaa.\nBbb.", fun _ => [chars "Aaa.", chars "Bbb."],
    Or.inr ⟨[chars "\n"], ?_, ?_, ?_, ?_⟩, ?_⟩
  · decide
  · decide
  · decide
  · decide
  · decide

/-- C1 (amended): the reconstruction guarantee holds exactly when the
normalized text is the single-space join of its (whitespace-clean) sentences
and no chunk falls below `min_chunk_size` (so that the merge post-pass is the
identity); then concatenating the non-overlapping prefixes of the returned
chunks rebuilds the normalized input exactly. -/
theorem c1_amended (tok : Str → List Str) (text : Str) (minCS maxCS ov : Int)
    (hov : 1 ≤ ov)
    (hclean : ∀ s ∈ tok (normalize text), cleanSent s = true)
    (htext : normalize text = joinL [' '] (tok (normalize text)))
    (hmin : ∀ c ∈ rawChunks (tok (normalize text)) maxCS ov,
      minCS ≤ strLen c.1) :
    reconstructChunks (split_markdown_into_chunks tok text minCS maxCS ov) =
      normalize text := by
  unfold split_markdown_into_chunks splitSentences
  rw [filterChunks_id minCS _ hmin]
  obtain ⟨hseg, hchain, hfs, hnil, hlast⟩ :=
    rawChunks_spec (tok (normalize text)) maxCS ov hclean hov
  by_cases hcs : rawChunks (tok (normalize text)) maxCS ov = []
  · rw [hcs, htext, hnil hcs]
    rfl
  · rw [reconstruct_eq_seg (joinL [' '] (tok (normalize text))) _ hcs hseg hchain,
      hfs, hlast hcs, segN_full]
    exact htext.symm

/-- Witness for the amended C1 at a concrete run with two sentences and one
boundary. -/
theorem c1_amended_witness :
    reconstructChunks (split_markdown_into_chunks
      (fun _ => [chars "Aaa bbb.", chars "Ccc ddd."])
      (chars "Aaa bbb. Ccc ddd.") 0 10 3) =
      normalize (chars "Aaa bbb. Ccc ddd.") :=
  c1_amended (fun _ => [chars "Aaa bbb.", chars "Ccc ddd."])
    (chars "Aaa bbb. Ccc ddd.") 0 10 3 (by decide) (by decide) (by decide)
    (by decide)

/-- C2, counterexample: with the two-newline separator the tokenizer contract
allows (`"Aa.\n\nBb."`, 8 characters), the single chunk produced spans
`[0, 7)`, and offset 7 of the normalized input is covered by no chunk. -/
theorem c2_counterexample :
    ∃ (text : Str) (tok : Str → List Str) (x : Int),
      IsTokenization (normalize text) (tok (normalize text)) ∧
      0 ≤ x ∧ x < strLen (normalize text) ∧
      ¬ coveredBy (split_markdown_into_chunks tok text 0 100 1) x := by
  refine ⟨chars "Aa.\n\nBb.", fun _ => [chars "Aa.", chars "Bb."], 7,
    Or.inr ⟨[chars "\n\n"], ?_, ?_, ?_, ?_⟩, ?_, ?_, ?_⟩
  · decide
  · decide
  · decide
  · decide
  · decide
  · decide
  · decide

/-- C2 (amended): the coverage guarantee holds exactly when the normalized
text is the single-space join of its (whitespace-clean) sentences; then every
offset of the normalized input lies in the span of some returned chunk — and
this survives the small-chunk merge pass for every `min_chunk_size`. -/
theorem c2_amended (tok : Str → List Str) (text : Str) (minCS maxCS ov : Int)
    (hov : 1 ≤ ov)
    (hclean : ∀ s ∈ tok (normalize text), cleanSent s = true)
    (htext : normalize text = joinL [' '] (tok (normalize text))) :
    ∀ x : Int, 0 ≤ x → x < strLen (normalize text) →
      coveredBy (split_markdown_into_chunks tok text minCS maxCS ov) x := by
  intro x hx0 hxN
  obtain ⟨hseg, hchain, hfs, hnil, hlast⟩ :=
    rawChunks_spec (tok (normalize text)) maxCS ov hclean hov
  rw [htext] at hxN
  cases hcs : rawChunks (tok (normalize text)) maxCS ov with
  | nil =>
    rw [hnil hcs] at hxN
    exact absurd hxN (by simp [joinL, strLen]; omega)
  | cons c0 cs' =>
    unfold split_markdown_into_chunks splitSentences filterChunks
    rw [hcs]
    have hstep0 : filterStep minCS [] c0 = [c0] := by
      unfold filterStep
      rw [if_pos (Or.inr rfl)]
      rfl
    simp only [List.foldl_cons, hstep0]
    rw [hcs] at hchain hfs hlast
    obtain ⟨lr, e1, e2, e3, e4⟩ := filter_fold_pres minCS cs' [c0] c0 rfl
      trivial hfs hchain
    have hres : cs'.foldl (filterStep minCS) [c0] ≠ [] := by
      intro h0
      rw [h0] at e1
      cases e1
    apply coverage_of_chain _ hres e2 x
    · rw [e3]
      exact hx0
    · rw [lastEnd_eq_of_getLast? _ lr e1, e4, hlast (by simp)]
      exact hxN

/-- Witness for the amended C2: offset 16 of the 17-character normalized
input is covered. -/
theorem c2_amended_witness :
    coveredBy (split_markdown_into_chunks
      (fun _ => [chars "Aaa bbb.", chars "Ccc ddd."])
      (chars "Aaa bbb. Ccc ddd.") 0 10 3) 16 :=
  c2_amended (fun _ => [chars "Aaa bbb.", chars "Ccc ddd."])
    (chars "Aaa bbb. Ccc ddd.") 0 10 3 (by decide) (by decide) (by decide)
    16 (by decide) (by decide)

/-! ## Claim C7: index monotonicity of a fresh extraction run -/
theorem alookup_aset {α : Type} (l : List (Str × α)) (k k' : Str) (v : α) :
    alookup (aset l k v) k' = if k = k' then some v else alookup l k' := by
  induction l with
  | nil => simp [aset, alookup]
  | cons p rest ih =>
    obtain ⟨a, b⟩ := p
    simp only [aset]
    by_cases hak : a = k
    · rw [if_pos hak]
      simp only [alookup]
      by_cases hk : k = k'
      · rw [if_pos hk, if_pos hk]
      · rw [if_neg hk, if_neg hk, hak, if_neg hk]
    · rw [if_neg hak]
      simp only [alookup]
      by_cases ha' : a = k'
      · have hk : k ≠ k' := fun he => hak (ha'.trans he.symm)
        rw [if_pos ha', if_neg hk, if_pos ha']
      · rw [if_neg ha', ih]
        by_cases hk : k = k'
        · rw [if_pos hk, if_pos hk]
        · rw [if_neg hk, if_neg hk, if_neg ha']

theorem alookup_add_section (st : ExtState) (idx : Int) (title content key : Str)
    (h : pyStr idx ≠ key) :
    alookup (add_section st idx title content).store.sections key =
      alookup st.store.sections key := by
  show alookup (aset st.store.sections (pyStr idx) _) key = _
  rw [alookup_aset, if_neg h]

theorem processLeaf_inv (k : Int) (base : List (Str × SectionMeta))
    (st : ExtState) (title content : Str) (h : ExtInv k base st) :
    ExtInv k base (processLeaf st title content) := by
  obtain ⟨hc, h2, h3⟩ := h
  unfold processLeaf
  by_cases hdup : check_section_exists_by_title st.store title = true
  · rw [if_pos hdup]
    exact ⟨hc, h2, h3⟩
  · rw [if_neg hdup]
    have h3' : ∀ key, alookup st.store.sections key ≠ none →
        alookup base key = none →
        ∃ n : Int, key = pyStr n ∧ k < n ∧ n < st.counter + 1 := by
      intro key ha hb
      obtain ⟨n, e1, e2, e3⟩ := h3 key ha hb
      exact ⟨n, e1, e2, by omega⟩
    by_cases hfs : sectionPath st.counter title ∈ st.fsPaths
    · rw [if_pos hfs]
      exact ⟨by show k + 1 ≤ st.counter + 1; omega, h2, h3'⟩
    · rw [if_neg hfs]
      by_cases hmeta : (alookup st.store.sections (pyStr st.counter)).isSome = true
      · rw [if_pos hmeta]
        exact ⟨by show k + 1 ≤ st.counter + 1; omega, h2, h3'⟩
      · rw [if_neg hmeta]
        have hnone : alookup st.store.sections (pyStr st.counter) = none := by
          cases hval : alookup st.store.sections (pyStr st.counter) with
          | none => rfl
          | some v => rw [hval] at hmeta; exact absurd rfl hmeta
        refine ⟨?_, ?_, ?_⟩
        · show k + 1 ≤ st.counter + 1
          omega
        · intro key hkey
          by_cases he : pyStr st.counter = key
          · exfalso
            rw [he] at hnone
            have hco := h2 key hkey
            rw [hnone] at hco
            exact hkey hco.symm
          · rw [alookup_add_section _ _ _ _ _ he]
            exact h2 key hkey
        · intro key ha hb
          by_cases he : pyStr st.counter = key
          · refine ⟨st.counter, he.symm, by omega, ?_⟩
            show st.counter < st.counter + 1
            omega
          · rw [alookup_add_section _ _ _ _ _ he] at ha
            obtain ⟨n, e1, e2, e3⟩ := h3 key ha hb
            refine ⟨n, e1, e2, ?_⟩
            show n < st.counter + 1
            omega

theorem processLeaf_fold_inv (k : Int) (base : List (Str × SectionMeta)) :
    ∀ (parts : List (Str × Str)) (st : ExtState), ExtInv k base st →
      ExtInv k base (parts.foldl (fun s p => processLeaf s p.1 p.2) st) := by
  intro parts
  induction parts with
  | nil => intro st h; exact h
  | cons p rest ih =>
    intro st h
    exact ih _ (processLeaf_inv k base st p.1 p.2 h)

mutual
theorem extract_section_inv (t : FBTree) (p : Str) (k : Int)
    (base : List (Str × SectionMeta)) (st : ExtState) (h : ExtInv k base st) :
    ExtInv k base (extract_section_recursive t p st) := by
  cases t with
  | sec title content children =>
    cases children with
    | nil =>
      rw [extract_section_recursive]
      by_cases h1 : pyStrip content ≠ []
      · rw [if_pos h1]
        by_cases h2 : (100000 : Int) < strLen content
        · rw [if_pos h2]
          exact processLeaf_fold_inv k base _ st h
        · rw [if_neg h2]
          exact processLeaf_inv k base st _ _ h
      · rw [if_neg h1]
        exact h
    | cons c cs =>
      rw [extract_section_recursive]
      exact extractChildren_inv (c :: cs) (fullTitleOf title p) k base st h

theorem extractChildren_inv (ts : List FBTree) (p : Str) (k : Int)
    (base : List (Str × SectionMeta)) (st : ExtState) (h : ExtInv k base st) :
    ExtInv k base (extractChildren ts p st) := by
  cases ts with
  | nil => exact h
  | cons t ts2 =>
    rw [extractChildren]
    exact extractChildren_inv ts2 p k base _ (extract_section_inv t p k base st h)
end

/-- C7: for a store whose maximal integer-parseable section index is `k`, a
fresh extraction run leaves every pre-existing section entry unchanged (no
index is reused), and every newly persisted section is stored under the
decimal print of an index strictly greater than `k`. -/
theorem c7_index_monotonicity (roots : List FBTree) (store : Store)
    (fsPaths : List Str) (key : Str) :
    (alookup store.sections key ≠ none →
      alookup (parse_fb2_content roots store fsPaths).store.sections key =
        alookup store.sections key) ∧
    (alookup (parse_fb2_content roots store fsPaths).store.sections key ≠ none →
      alookup store.sections key = none →
      ∃ n : Int, key = pyStr n ∧ maxParseIdx store.sections < n) := by
  have h := extractChildren_inv roots [] (maxParseIdx store.sections)
    store.sections ⟨store, fsPaths, maxParseIdx store.sections + 1⟩
    ⟨le_refl _, fun _ _ => rfl, fun key hk hb => absurd hb hk⟩
  obtain ⟨-, h2, h3⟩ := h
  exact ⟨h2 key, fun ha hb => (h3 key ha hb).imp fun n hn => ⟨hn.1, hn.2.1⟩⟩

/-- Witness for C7: with a stored section under key `"2"`, extracting one
fresh leaf stores it under `"3"`; the key is the print of an index above the
stored maximum 2, and the old entry survives. -/
theorem c7_index_monotonicity_witness :
    ∃ n : Int, chars "3" = pyStr n ∧
      maxParseIdx [(chars "2", (⟨2, chars "Old", [], []⟩ : SectionMeta))] < n :=
  (c7_index_monotonicity [FBTree.sec (some (chars "T")) (chars "Hello.") []]
    ⟨[(chars "2", ⟨2, chars "Old", [], []⟩)], []⟩ [] (chars "3")).2
    (by decide) (by decide)

/-! ## Claim C4: decimal print/parse roundtrip -/
theorem digitChar_isDigit (d : Nat) (h : d < 10) : isDigitCh (digitChar d) = true := by
  interval_cases d <;> decide

theorem digitVal_digitChar (d : Nat) (h : d < 10) : digitVal (digitChar d) = d := by
  interval_cases d <;> decide

theorem isDigitCh_wordChar (c : Char) (h : isDigitCh c = true) : wordChar c = true := by
  have hws : pyWS c = false := by
    cases hc : pyWS c
    · rfl
    · exfalso
      simp only [pyWS, Bool.or_eq_true, decide_eq_true_eq] at hc
      rcases hc with ((((rfl | rfl) | rfl) | rfl) | rfl) | rfl <;>
        exact absurd h (by decide)
  simp [wordChar, hws]

theorem pyStrNatAux_digits : ∀ (fuel n : Nat), (pyStrNatAux fuel n).all isDigitCh = true := by
  intro fuel
  induction fuel with
  | zero => intro n; rfl
  | succ f ih =>
    intro n
    rw [pyStrNatAux]
    by_cases h : n < 10
    · rw [if_pos h]
      simp [digitChar_isDigit n h]
    · rw [if_neg h]
      rw [List.all_append]
      rw [ih (n / 10)]
      simp [digitChar_isDigit (n % 10) (Nat.mod_lt _ (by omega))]

theorem pyStrNatAux_ne_nil (fuel n : Nat) (h : 0 < fuel) : pyStrNatAux fuel n ≠ [] := by
  cases fuel with
  | zero => omega
  | succ f =>
    rw [pyStrNatAux]
    by_cases h10 : n < 10
    · rw [if_pos h10]
      simp
    · rw [if_neg h10]
      simp

theorem parseDigitsAcc_append (xs : Str) : ∀ (a : Nat) (ys : Str),
    parseDigitsAcc a (xs ++ ys) = parseDigitsAcc (parseDigitsAcc a xs) ys := by
  induction xs with
  | nil => intro a ys; rfl
  | cons c rest ih =>
    intro a ys
    show parseDigitsAcc (a * 10 + digitVal c) (rest ++ ys) = _
    rw [ih]
    rfl

theorem parse_pyStrNatAux : ∀ (fuel n acc : Nat), n < fuel →
    parseDigitsAcc acc (pyStrNatAux fuel n) =
      acc * 10 ^ (pyStrNatAux fuel n).length + n := by
  intro fuel
  induction fuel with
  | zero => intro n acc h; omega
  | succ f ih =>
    intro n acc h
    rw [pyStrNatAux]
    by_cases h10 : n < 10
    · rw [if_pos h10]
      show parseDigitsAcc (acc * 10 + digitVal (digitChar n)) [] = _
      rw [digitVal_digitChar n h10]
      show acc * 10 + n = acc * 10 ^ 1 + n
      rw [pow_one]
    · rw [if_neg h10]
      rw [parseDigitsAcc_append]
      have hn : n / 10 < f := by omega
      rw [ih (n / 10) acc hn]
      show parseDigitsAcc (acc * 10 ^ (pyStrNatAux f (n / 10)).length + n / 10)
        [digitChar (n % 10)] = _
      show (acc * 10 ^ (pyStrNatAux f (n / 10)).length + n / 10) * 10 +
          digitVal (digitChar (n % 10)) = _
      rw [digitVal_digitChar _ (Nat.mod_lt _ (by omega))]
      rw [List.length_append, List.length_singleton, pow_succ]
      have h1 : (acc * 10 ^ (pyStrNatAux f (n / 10)).length + n / 10) * 10 + n % 10 =
          acc * (10 ^ (pyStrNatAux f (n / 10)).length * 10) + (n / 10 * 10 + n % 10) := by
        ring
      rw [h1, Nat.div_add_mod' n 10]

theorem parse_pyStrNat (n : Nat) : parseDigitsAcc 0 (pyStrNat n) = n := by
  unfold pyStrNat
  rw [parse_pyStrNatAux (n + 1) n 0 (by omega)]
  simp

theorem pyInt_digits (c : Char) (rest : Str) (hall : (c :: rest).all isDigitCh = true) :
    pyInt (c :: rest) = some ((parseDigitsAcc 0 (c :: rest) : Int)) := by
  have hstrip : pyStrip (c :: rest) = c :: rest :=
    pyStrip_of_words _ (fun x hx =>
      isDigitCh_wordChar x (List.all_eq_true.mp hall x hx))
  have hc : isDigitCh c = true := by
    have := List.all_eq_true.mp hall c (by simp)
    simpa using this
  simp only [pyInt]
  rw [hstrip]
  split
  · rename_i rest2 heq
    exfalso
    have : c = '-' := (List.cons.injEq _ _ _ _ ▸ heq).1
    rw [this] at hc
    exact absurd hc (by decide)
  · rename_i rest2 heq
    exfalso
    have : c = '+' := (List.cons.injEq _ _ _ _ ▸ heq).1
    rw [this] at hc
    exact absurd hc (by decide)
  · rw [if_pos ⟨by simp, hall⟩]

theorem pyInt_pyStr (n : Int) (h : 0 ≤ n) : pyInt (pyStr n) = some n := by
  unfold pyStr
  rw [if_neg (by omega : ¬ n < 0)]
  cases heq : pyStrNat n.toNat with
  | nil => exact absurd heq (pyStrNatAux_ne_nil _ _ (by omega))
  | cons c rest =>
    have hall : (c :: rest).all isDigitCh = true := by
      rw [← heq]
      exact pyStrNatAux_digits _ _
    rw [pyInt_digits c rest hall, ← heq, parse_pyStrNat]
    rw [Int.toNat_of_nonneg h]

theorem pyStr_inj_nonneg (a b : Int) (ha : 0 ≤ a) (hb : 0 ≤ b)
    (h : pyStr a = pyStr b) : a = b := by
  have h1 := pyInt_pyStr a ha
  have h2 := pyInt_pyStr b hb
  rw [h] at h1
  rw [h1] at h2
  injection h2

theorem parse_zeros : ∀ (k : Nat) (ds : Str),
    parseDigitsAcc 0 (List.replicate k '0' ++ ds) = parseDigitsAcc 0 ds := by
  intro k
  induction k with
  | zero => intro ds; rfl
  | succ j ih =>
    intro ds
    rw [List.replicate_succ]
    show parseDigitsAcc (0 * 10 + digitVal '0') (List.replicate j '0' ++ ds) = _
    have : (0 : Nat) * 10 + digitVal '0' = 0 := by decide
    rw [this, ih]

theorem pad4_digits (i : Int) (h : 0 ≤ i) : (pad4 i).all isDigitCh = true := by
  unfold pad4
  have hs : (pyStr i).all isDigitCh = true := by
    unfold pyStr
    rw [if_neg (by omega : ¬ i < 0)]
    exact pyStrNatAux_digits _ _
  by_cases hl : (pyStr i).length < 4
  · rw [if_pos hl, List.all_append, hs]
    have hrep : ∀ k : Nat, (List.replicate k '0').all isDigitCh = true := by
      intro k
      rw [List.all_eq_true]
      intro x hx
      rw [List.eq_of_mem_replicate hx]
      decide
    simp [hrep]
  · rw [if_neg hl]
    exact hs

theorem pyInt_pad4 (i : Int) (h : 0 ≤ i) : pyInt (pad4 i) = some i := by
  unfold pad4
  by_cases hl : (pyStr i).length < 4
  · rw [if_pos hl]
    cases heq : List.replicate (4 - (pyStr i).length) '0' ++ pyStr i with
    | nil =>
      exfalso
      have hlen := congrArg List.length heq
      simp at hlen
      have : pyStr i ≠ [] := by
        unfold pyStr
        rw [if_neg (by omega : ¬ i < 0)]
        exact pyStrNatAux_ne_nil _ _ (by omega)
      exact this hlen.2
    | cons c rest =>
      have hall : (c :: rest).all isDigitCh = true := by
        rw [← heq, List.all_append]
        have hrep : ∀ k : Nat, (List.replicate k '0').all isDigitCh = true := by
          intro k
          rw [List.all_eq_true]
          intro x hx
          rw [List.eq_of_mem_replicate hx]
          decide
        have hs : (pyStr i).all isDigitCh = true := by
          unfold pyStr
          rw [if_neg (by omega : ¬ i < 0)]
          exact pyStrNatAux_digits _ _
        simp [hrep, hs]
      rw [pyInt_digits c rest hall, ← heq, parse_zeros]
      have : parseDigitsAcc 0 (pyStr i) = i.toNat := by
        unfold pyStr
        rw [if_neg (by omega : ¬ i < 0)]
        exact parse_pyStrNat _
      rw [this, Int.toNat_of_nonneg h]
  · rw [if_neg hl]
    exact pyInt_pyStr i h

theorem takeWhile_digits_append : ∀ (a b : Str), a.all isDigitCh = true →
    (∀ c ∈ b.head?, isDigitCh c = false) →
    (a ++ b).takeWhile isDigitCh = a := by
  intro a
  induction a with
  | nil =>
    intro b _ hb
    cases b with
    | nil => rfl
    | cons c rest =>
      have hc : isDigitCh c = false := hb c (by simp)
      simp [List.takeWhile_cons, hc]
  | cons x xs ih =>
    intro b ha hb
    have hx : isDigitCh x = true := List.all_eq_true.mp ha x (by simp)
    have hxs : xs.all isDigitCh = true := by
      rw [List.all_eq_true]
      intro y hy
      exact List.all_eq_true.mp ha y (by simp [hy])
    show List.takeWhile isDigitCh (x :: (xs ++ b)) = x :: xs
    simp [List.takeWhile_cons, hx, ih b hxs hb]

theorem takeWhile_gen (t : Str) (i : Int) (hi : 0 ≤ i) :
    (generate_unique_filename t i ++ chars ".txt").takeWhile isDigitCh = pad4 i := by
  unfold generate_unique_filename
  by_cases hs : sanitize_filename t ≠ []
  · rw [if_pos hs, List.append_assoc]
    refine takeWhile_digits_append _ _ (pad4_digits i hi) ?_
    intro c hc
    have h2 : '_' = c := by simpa using hc
    rw [← h2]
    decide
  · rw [if_neg hs]
    refine takeWhile_digits_append _ _ (pad4_digits i hi) ?_
    intro c hc
    have h2 : '.' = c := by simpa [chars] using hc
    rw [← h2]
    decide

theorem sectionPath_inj_idx (n m : Int) (t u : Str) (hn : 0 ≤ n) (hm : 0 ≤ m)
    (h : sectionPath n t = sectionPath m u) : n = m := by
  unfold sectionPath at h
  rw [List.append_assoc, List.append_assoc] at h
  have h2 := List.append_cancel_left h
  have h3 := congrArg (List.takeWhile isDigitCh) h2
  rw [takeWhile_gen t n hn, takeWhile_gen u m hm] at h3
  have h4 := congrArg pyInt h3
  rw [pyInt_pad4 n hn, pyInt_pad4 m hm] at h4
  injection h4

theorem alookup_mem {α : Type} : ∀ (l : List (Str × α)) (k : Str) (v : α),
    alookup l k = some v → (k, v) ∈ l := by
  intro l
  induction l with
  | nil => intro k v h; cases h
  | cons p rest ih =>
    intro k v h
    obtain ⟨k', v'⟩ := p
    by_cases hk : k' = k
    · subst hk
      rw [alookup, if_pos rfl] at h
      injection h with h
      subst h
      exact List.mem_cons_self _ _
    · have h' : alookup rest k = some v := by
        rw [alookup, if_neg hk] at h
        exact h
      exact List.mem_cons_of_mem _ (ih k v h')

theorem aset_fresh {α : Type} : ∀ (l : List (Str × α)) (k : Str) (v : α),
    alookup l k = none → aset l k v = l ++ [(k, v)] := by
  intro l
  induction l with
  | nil => intro k v _; rfl
  | cons p rest ih =>
    intro k v h
    obtain ⟨k', v'⟩ := p
    by_cases hk : k' = k
    · rw [alookup, if_pos hk] at h
      cases h
    · rw [alookup, if_neg hk] at h
      rw [aset, if_neg hk, ih k v h]
      rfl

theorem maxParseIdx_fold_ge {α : Type} : ∀ (l : List (Str × α)) (a : Int),
    a ≤ l.foldl (fun m kv => match pyInt kv.1 with | some n => max m n | none => m) a := by
  intro l
  induction l with
  | nil => intro a; exact le_refl a
  | cons kv rest ih =>
    intro a
    simp only [List.foldl_cons]
    cases hp : pyInt kv.1 with
    | none => exact ih a
    | some n => exact le_trans (le_max_left a n) (ih (max a n))

theorem maxParseIdx_ge {α : Type} (l : List (Str × α)) : -1 ≤ maxParseIdx l :=
  maxParseIdx_fold_ge l (-1)

theorem maxParseIdx_bound {α : Type} : ∀ (l : List (Str × α)) (a : Int)
    (kv : Str × α), kv ∈ l → ∀ m : Int, pyInt kv.1 = some m →
    m ≤ l.foldl (fun m kv => match pyInt kv.1 with | some n => max m n | none => m) a := by
  intro l
  induction l with
  | nil => intro a kv h; cases h
  | cons p rest ih =>
    intro a kv hkv m hm
    simp only [List.foldl_cons]
    rcases List.mem_cons.mp hkv with h1 | h1
    · subst h1
      rw [hm]
      exact le_trans (le_max_right a m) (maxParseIdx_fold_ge rest (max a m))
    · cases hp : pyInt p.1 with
      | none => exact ih a kv h1 m hm
      | some n => exact ih (max a n) kv h1 m hm

theorem check_eq_titleStored (s : Store) (t : Str) :
    check_section_exists_by_title s t = titleStoredSecs s.sections t := rfl

theorem titleMono_refl (s : List (Str × SectionMeta)) : TitleMono s s :=
  fun _ h => h

theorem titleMono_trans {s s' s'' : List (Str × SectionMeta)}
    (h1 : TitleMono s s') (h2 : TitleMono s' s'') : TitleMono s s'' :=
  fun t h => h2 t (h1 t h)

theorem titleStoredSecs_append (l : List (Str × SectionMeta))
    (e : Str × SectionMeta) (t : Str) (h : titleStoredSecs l t = true) :
    titleStoredSecs (l ++ [e]) t = true := by
  unfold titleStoredSecs at h ⊢
  by_cases ht : t = []
  · rw [if_pos ht] at h
    cases h
  · rw [if_neg ht] at h ⊢
    rw [List.any_append, h]
    rfl

theorem titleStoredSecs_last (l : List (Str × SectionMeta))
    (e : Str × SectionMeta) (t : Str) (he : e.2.title = t) (ht : t ≠ []) :
    titleStoredSecs (l ++ [e]) t = true := by
  unfold titleStoredSecs
  rw [if_neg ht, List.any_append]
  have : [e].any (fun kv => kv.2.title = t) = true := by
    simp [he]
  rw [this, Bool.or_true]

theorem titleStored_add_section (st : ExtState) (idx : Int) (title content t : Str)
    (hnone : alookup st.store.sections (pyStr idx) = none)
    (h : titleStoredSecs st.store.sections t = true) :
    titleStoredSecs (add_section st idx title content).store.sections t = true := by
  show titleStoredSecs (aset st.store.sections (pyStr idx) _) t = true
  rw [aset_fresh _ _ _ hnone]
  exact titleStoredSecs_append _ _ t h

theorem titleStored_add_section_self (st : ExtState) (idx : Int) (title content : Str)
    (hnone : alookup st.store.sections (pyStr idx) = none) (ht : title ≠ []) :
    titleStoredSecs (add_section st idx title content).store.sections title = true := by
  show titleStoredSecs (aset st.store.sections (pyStr idx) _) title = true
  rw [aset_fresh _ _ _ hnone]
  exact titleStoredSecs_last _ _ title rfl ht

theorem processLeaf_mono (st : ExtState) (title content : Str) :
    TitleMono st.store.sections (processLeaf st title content).store.sections := by
  unfold processLeaf
  by_cases hdup : check_section_exists_by_title st.store title = true
  · rw [if_pos hdup]
    exact titleMono_refl _
  · rw [if_neg hdup]
    by_cases hfs : sectionPath st.counter title ∈ st.fsPaths
    · rw [if_pos hfs]
      exact titleMono_refl _
    · rw [if_neg hfs]
      by_cases hmeta : (alookup st.store.sections (pyStr st.counter)).isSome = true
      · rw [if_pos hmeta]
        exact titleMono_refl _
      · rw [if_neg hmeta]
        have hnone : alookup st.store.sections (pyStr st.counter) = none := by
          cases hval : alookup st.store.sections (pyStr st.counter) with
          | none => rfl
          | some v => rw [hval] at hmeta; exact absurd rfl hmeta
        intro t ht
        exact titleStored_add_section _ _ _ _ t hnone ht

theorem processLeaf_stores (st : ExtState) (title content : Str) (hR : Rinv st)
    (ht : title ≠ []) :
    Rinv (processLeaf st title content) ∧
    titleStoredSecs (processLeaf st title content).store.sections title = true := by
  obtain ⟨hc0, hfs, hkeys⟩ := hR
  unfold processLeaf
  by_cases hdup : check_section_exists_by_title st.store title = true
  · rw [if_pos hdup]
    refine ⟨⟨hc0, hfs, hkeys⟩, ?_⟩
    rw [← check_eq_titleStored]
    exact hdup
  · rw [if_neg hdup]
    have hnofs : sectionPath st.counter title ∉ st.fsPaths := by
      intro hmem
      obtain ⟨n, u, hn0, hnc, heq⟩ := hfs _ hmem
      have := sectionPath_inj_idx st.counter n title u hc0 hn0 heq
      omega
    rw [if_neg hnofs]
    have hnone : alookup st.store.sections (pyStr st.counter) = none := by
      cases hval : alookup st.store.sections (pyStr st.counter) with
      | none => rfl
      | some v =>
        exfalso
        obtain ⟨n, hn0, hkey, hnc⟩ := hkeys _ (by rw [hval]; simp)
        have := pyStr_inj_nonneg st.counter n hc0 hn0 hkey
        omega
    have hmeta : ¬ (alookup st.store.sections (pyStr st.counter)).isSome = true := by
      rw [hnone]
      simp
    rw [if_neg hmeta]
    refine ⟨⟨?_, ?_, ?_⟩, ?_⟩
    · show (0 : Int) ≤ st.counter + 1
      omega
    · intro q hq
      have hq2 : q ∈ st.fsPaths ++ [sectionPath st.counter title] := hq
      rcases List.mem_append.mp hq2 with h1 | h1
      · obtain ⟨n, u, e0, e1, e2⟩ := hfs q h1
        exact ⟨n, u, e0, by show n < st.counter + 1; omega, e2⟩
      · exact ⟨st.counter, title, hc0,
          by show st.counter < st.counter + 1; omega, List.mem_singleton.mp h1⟩
    · intro key hkey
      by_cases he : pyStr st.counter = key
      · exact ⟨st.counter, hc0, he.symm, by show st.counter < st.counter + 1; omega⟩
      · rw [alookup_add_section _ _ _ _ _ he] at hkey
        obtain ⟨n, e0, e1, e2⟩ := hkeys key hkey
        exact ⟨n, e0, e1, by show n < st.counter + 1; omega⟩
    · exact titleStored_add_section_self _ _ _ _ hnone ht

theorem processLeaf_fold_stores :
    ∀ (parts : List (Str × Str)) (st : ExtState), Rinv st →
      (∀ pr ∈ parts, pr.1 ≠ []) →
      Rinv (parts.foldl (fun s p => processLeaf s p.1 p.2) st) ∧
      TitleMono st.store.sections
        (parts.foldl (fun s p => processLeaf s p.1 p.2) st).store.sections ∧
      ∀ pr ∈ parts, titleStoredSecs
        (parts.foldl (fun s p => processLeaf s p.1 p.2) st).store.sections pr.1 = true := by
  intro parts
  induction parts with
  | nil =>
    intro st hR _
    exact ⟨hR, titleMono_refl _, fun pr hpr => absurd hpr (List.not_mem_nil pr)⟩
  | cons p rest ih =>
    intro st hR hne
    obtain ⟨hR1, hst1⟩ := processLeaf_stores st p.1 p.2 hR (hne p (by simp))
    obtain ⟨hR2, hm2, hs2⟩ := ih (processLeaf st p.1 p.2) hR1
      (fun pr hpr => hne pr (by simp [hpr]))
    refine ⟨hR2, titleMono_trans (processLeaf_mono st p.1 p.2) hm2, ?_⟩
    intro pr hpr
    rcases List.mem_cons.mp hpr with h1 | h1
    · subst h1
      exact hm2 pr.1 hst1
    · exact hs2 pr h1

theorem partTitle_ne_nil (title : Str) (n : Int) : partTitle title n ≠ [] := by
  unfold partTitle
  intro h
  have h2 := congrArg List.length h
  rw [List.length_append, List.length_append] at h2
  have h9 : (chars " - часть ").length = 9 := rfl
  rw [h9] at h2
  simp at h2

theorem titledParts_titles_ne (title : Str) :
    ∀ (gs : List (List Str)) (start : Int) (pr : Str × Str),
      pr ∈ titledParts title start gs → pr.1 ≠ [] := by
  intro gs
  induction gs with
  | nil =>
    intro start pr hpr
    simp [titledParts] at hpr
  | cons g rest ih =>
    intro start pr hpr
    rw [titledParts] at hpr
    rcases List.mem_cons.mp hpr with h1 | h1
    · rw [h1]
      exact partTitle_ne_nil title start
    · exact ih (start + 1) pr h1

theorem sl_titles_ne (C t : Str) (T : Int) (h : T < strLen C) :
    ∀ pr ∈ split_long_section_by_paragraphs C t T, pr.1 ≠ [] := by
  rw [sl_eq_titledGroups C t T h]
  intro pr hpr
  exact titledParts_titles_ne t (slGroups C T) 1 pr hpr

mutual
theorem allStored_mono (t : FBTree) (p : Str) (s s' : List (Str × SectionMeta))
    (hm : TitleMono s s') (h : AllStoredTree t p s) : AllStoredTree t p s' := by
  cases t with
  | sec title content children =>
    cases children with
    | nil =>
      rw [AllStoredTree] at h ⊢
      intro hne
      have h2 := h hne
      by_cases hlong : (100000 : Int) < strLen content
      · rw [if_pos hlong] at h2 ⊢
        intro pr hpr
        exact hm pr.1 (h2 pr hpr)
      · rw [if_neg hlong] at h2 ⊢
        exact hm _ h2
    | cons c cs =>
      rw [AllStoredTree] at h ⊢
      exact allStoredL_mono (c :: cs) (fullTitleOf title p) s s' hm h

theorem allStoredL_mono (ts : List FBTree) (p : Str) (s s' : List (Str × SectionMeta))
    (hm : TitleMono s s') (h : AllStoredL ts p s) : AllStoredL ts p s' := by
  cases ts with
  | nil => trivial
  | cons t ts2 =>
    rw [AllStoredL] at h ⊢
    exact ⟨allStored_mono t p s s' hm h.1, allStoredL_mono ts2 p s s' hm h.2⟩
end

mutual
theorem extract_stores (t : FBTree) (p : Str) (st : ExtState)
    (hR : Rinv st) (ht : allTitled t p = true) :
    Rinv (extract_section_recursive t p st) ∧
    TitleMono st.store.sections (extract_section_recursive t p st).store.sections ∧
    AllStoredTree t p (extract_section_recursive t p st).store.sections := by
  cases t with
  | sec title content children =>
    cases children with
    | nil =>
      rw [extract_section_recursive, AllStoredTree]
      by_cases hne : pyStrip content ≠ []
      · rw [if_pos hne]
        by_cases hlong : (100000 : Int) < strLen content
        · rw [if_pos hlong]
          have hparts := sl_titles_ne content (fullTitleOf title p) 100000 hlong
          obtain ⟨hR2, hm2, hs2⟩ := processLeaf_fold_stores _ st hR hparts
          refine ⟨hR2, hm2, ?_⟩
          intro _
          rw [if_pos hlong]
          exact hs2
        · rw [if_neg hlong]
          have htitle : fullTitleOf title p ≠ [] := by
            rw [allTitled] at ht
            have ht2 : pyStrip content = [] ∨ fullTitleOf title p ≠ [] := by
              simpa using ht
            rcases ht2 with h1 | h1
            · exact absurd h1 hne
            · exact h1
          obtain ⟨hR2, hst⟩ := processLeaf_stores st (fullTitleOf title p) content hR htitle
          refine ⟨hR2, processLeaf_mono st _ _, ?_⟩
          intro _
          rw [if_neg hlong]
          exact hst
      · rw [if_neg hne]
        refine ⟨hR, titleMono_refl _, ?_⟩
        intro habs
        exact absurd habs hne
    | cons c cs =>
      rw [extract_section_recursive, AllStoredTree]
      rw [allTitled] at ht
      exact children_stores (c :: cs) (fullTitleOf title p) st hR ht

theorem children_stores (ts : List FBTree) (p : Str) (st : ExtState)
    (hR : Rinv st) (ht : allTitledL ts p = true) :
    Rinv (extractChildren ts p st) ∧
    TitleMono st.store.sections (extractChildren ts p st).store.sections ∧
    AllStoredL ts p (extractChildren ts p st).store.sections := by
  cases ts with
  | nil =>
    rw [extractChildren]
    exact ⟨hR, titleMono_refl _, trivial⟩
  | cons t ts2 =>
    rw [extractChildren, AllStoredL]
    rw [allTitledL, Bool.and_eq_true] at ht
    obtain ⟨ht1, ht2⟩ := ht
    obtain ⟨hR1, hm1, hs1⟩ := extract_stores t p st hR ht1
    obtain ⟨hR2, hm2, hs2⟩ :=
      children_stores ts2 p (extract_section_recursive t p st) hR1 ht2
    exact ⟨hR2, titleMono_trans hm1 hm2, allStored_mono t p _ _ hm2 hs1, hs2⟩
end

theorem processLeaf_skip (st : ExtState) (title content : Str)
    (h : titleStoredSecs st.store.sections title = true) :
    processLeaf st title content = st := by
  unfold processLeaf
  rw [if_pos (by rw [check_eq_titleStored]; exact h)]

theorem processLeaf_fold_skip :
    ∀ (parts : List (Str × Str)) (st : ExtState),
      (∀ pr ∈ parts, titleStoredSecs st.store.sections pr.1 = true) →
      parts.foldl (fun s p => processLeaf s p.1 p.2) st = st := by
  intro parts
  induction parts with
  | nil => intro st _; rfl
  | cons pr rest ih =>
    intro st h
    have h1 := processLeaf_skip st pr.1 pr.2 (h pr (by simp))
    show rest.foldl (fun s p => processLeaf s p.1 p.2) (processLeaf st pr.1 pr.2) = st
    rw [h1]
    exact ih st (fun q hq => h q (by simp [hq]))

mutual
theorem extract_skip (t : FBTree) (p : Str) (st : ExtState)
    (h : AllStoredTree t p st.store.sections) :
    extract_section_recursive t p st = st := by
  cases t with
  | sec title content children =>
    cases children with
    | nil =>
      rw [AllStoredTree] at h
      rw [extract_section_recursive]
      by_cases hne : pyStrip content ≠ []
      · rw [if_pos hne]
        have h2 := h hne
        by_cases hlong : (100000 : Int) < strLen content
        · rw [if_pos hlong] at h2
          rw [if_pos hlong]
          exact processLeaf_fold_skip _ st h2
        · rw [if_neg hlong] at h2
          rw [if_neg hlong]
          exact processLeaf_skip st _ content h2
      · rw [if_neg hne]
    | cons c cs =>
      rw [AllStoredTree] at h
      rw [extract_section_recursive]
      exact children_skip (c :: cs) (fullTitleOf title p) st h

theorem children_skip (ts : List FBTree) (p : Str) (st : ExtState)
    (h : AllStoredL ts p st.store.sections) :
    extractChildren ts p st = st := by
  cases ts with
  | nil => rw [extractChildren]
  | cons t ts2 =>
    rw [AllStoredL] at h
    rw [extractChildren]
    rw [extract_skip t p st h.1]
    exact children_skip ts2 p st h.2
end

theorem chunkFold_sections (tok : Str → List Str) (minCS maxCS ov : Int) :
    ∀ (l : List (Str × SectionMeta)) (s : Store),
      (l.foldl (fun s kv =>
        chunkSection tok minCS maxCS ov s kv.2.idx kv.2.sectionFile kv.2.fileBody) s).sections =
      s.sections := by
  intro l
  induction l with
  | nil => intro s; rfl
  | cons kv rest ih =>
    intro s
    rw [List.foldl_cons, ih]
    rfl

theorem chunkAllSections_sections (tok : Str → List Str) (minCS maxCS ov : Int)
    (s : Store) : (chunkAllSections tok minCS maxCS ov s).sections = s.sections :=
  chunkFold_sections tok minCS maxCS ov s.sections s

/-- Re-chunking a section never replaces its chunk metadata: all produced
chunks are appended under fresh keys `str(max existing index + 1), ...`. -/
theorem buildChunksMeta_length (ex : List (Str × ChunkMeta)) (new : List Chunk) :
    (buildChunksMeta ex new).length = ex.length + new.length := by
  unfold buildChunksMeta
  have main : ∀ (l : List Chunk) (acc : List (Str × ChunkMeta)) (n : Int),
      0 ≤ n →
      (∀ key, alookup acc key ≠ none →
        pyInt key = none ∨ ∃ m : Int, pyInt key = some m ∧ m < n) →
      (l.foldl
        (fun a c => (aset a.1 (pyStr a.2) ⟨a.2, strLen c.1, c.2.1, c.2.2⟩, a.2 + 1))
        (acc, n)).1.length = acc.length + l.length := by
    intro l
    induction l with
    | nil =>
      intro acc n _ _
      simp
    | cons c rest ih =>
      intro acc n hn hkb
      have hfresh : alookup acc (pyStr n) = none := by
        cases hv : alookup acc (pyStr n) with
        | none => rfl
        | some v =>
          exfalso
          rcases hkb (pyStr n) (by rw [hv]; simp) with h1 | ⟨m, h1, h2⟩
          · rw [pyInt_pyStr n hn] at h1
            cases h1
          · rw [pyInt_pyStr n hn] at h1
            injection h1 with h1
            omega
      have hkb' : ∀ key,
          alookup (aset acc (pyStr n) ⟨n, strLen c.1, c.2.1, c.2.2⟩) key ≠ none →
          pyInt key = none ∨ ∃ m : Int, pyInt key = some m ∧ m < n + 1 := by
        intro key hkey
        rw [alookup_aset] at hkey
        by_cases he : pyStr n = key
        · right
          exact ⟨n, by rw [← he, pyInt_pyStr n hn], by omega⟩
        · rw [if_neg he] at hkey
          rcases hkb key hkey with h1 | ⟨m, h1, h2⟩
          · exact Or.inl h1
          · exact Or.inr ⟨m, h1, by omega⟩
      have hlen : (aset acc (pyStr n) (⟨n, strLen c.1, c.2.1, c.2.2⟩ : ChunkMeta)).length =
          acc.length + 1 := by
        rw [aset_fresh _ _ _ hfresh]
        simp
      have hres := ih (aset acc (pyStr n) ⟨n, strLen c.1, c.2.1, c.2.2⟩) (n + 1)
        (by omega) hkb'
      show (rest.foldl
          (fun a c => (aset a.1 (pyStr a.2) ⟨a.2, strLen c.1, c.2.1, c.2.2⟩, a.2 + 1))
          (aset acc (pyStr n) ⟨n, strLen c.1, c.2.1, c.2.2⟩, n + 1)).1.length =
        acc.length + (c :: rest).length
      rw [hres, hlen, List.length_cons]
      omega
  rw [main new ex (maxParseIdx ex + 1) (by have := maxParseIdx_ge ex; omega) ?_]
  intro key hkey
  cases hpi : pyInt key with
  | none => exact Or.inl rfl
  | some m =>
    right
    refine ⟨m, rfl, ?_⟩
    cases hv : alookup ex key with
    | none => exact absurd hv hkey
    | some v =>
      have hmem := alookup_mem ex key v hv
      have := maxParseIdx_bound ex (-1) (key, v) hmem m hpi
      unfold maxParseIdx
      omega

/-- C4, counterexample: on a one-section document the second pipeline run
adds no section (title dedup) but re-appends the section's single chunk, so
the total chunk count doubles instead of staying equal. -/
theorem c4_counterexample :
    ∃ (tok : Str → List Str) (roots : List FBTree),
      sectionCount (pipelineOnce tok 0 100 1 roots
        (pipelineOnce tok 0 100 1 roots ⟨emptyStore, []⟩)).store =
        sectionCount (pipelineOnce tok 0 100 1 roots ⟨emptyStore, []⟩).store ∧
      chunkCount (pipelineOnce tok 0 100 1 roots
        (pipelineOnce tok 0 100 1 roots ⟨emptyStore, []⟩)).store ≠
        chunkCount (pipelineOnce tok 0 100 1 roots ⟨emptyStore, []⟩).store := by
  refine ⟨fun s => if s = [] then [] else [s],
    [FBTree.sec (some (chars "T")) (chars "Hello.") []], ?_, ?_⟩
  · decide
  · decide

/-- C4 (amended): starting from an empty store and file system, over a
document whose persistable leaves all carry nonempty full titles, rerunning
the pipeline leaves the total section count unchanged (the title dedup skips
every already-stored section); but chunk metadata is appended from
`max existing index + 1` on every run — re-chunking a section with `|ex|`
stored entries and `|new|` produced chunks always stores `|ex| + |new|`
entries — so the total chunk count grows on each rerun instead of staying
equal. -/
theorem c4_amended (tok : Str → List Str) (minCS maxCS ov : Int)
    (roots : List FBTree) (ex : List (Str × ChunkMeta)) (newChunks : List Chunk)
    (ht : allTitledL roots [] = true) :
    sectionCount (pipelineOnce tok minCS maxCS ov roots
      (pipelineOnce tok minCS maxCS ov roots ⟨emptyStore, []⟩)).store =
      sectionCount (pipelineOnce tok minCS maxCS ov roots ⟨emptyStore, []⟩).store ∧
    (buildChunksMeta ex newChunks).length = ex.length + newChunks.length := by
  refine ⟨?_, buildChunksMeta_length ex newChunks⟩
  have hR0 : Rinv ⟨emptyStore, [], maxParseIdx emptyStore.sections + 1⟩ := by
    refine ⟨by show (0 : Int) ≤ maxParseIdx ([] : List (Str × SectionMeta)) + 1; decide,
      ?_, ?_⟩
    · intro q hq
      exact absurd hq (List.not_mem_nil q)
    · intro key hkey
      exact absurd rfl hkey
  obtain ⟨-, -, hstored⟩ :=
    children_stores roots [] ⟨emptyStore, [], maxParseIdx emptyStore.sections + 1⟩ hR0 ht
  have hskip := children_skip roots []
    ⟨(pipelineOnce tok minCS maxCS ov roots ⟨emptyStore, []⟩).store,
     (pipelineOnce tok minCS maxCS ov roots ⟨emptyStore, []⟩).fsPaths,
     maxParseIdx (pipelineOnce tok minCS maxCS ov roots ⟨emptyStore, []⟩).store.sections + 1⟩
    (by
      show AllStoredL roots []
        (pipelineOnce tok minCS maxCS ov roots ⟨emptyStore, []⟩).store.sections
      have hsec : (pipelineOnce tok minCS maxCS ov roots ⟨emptyStore, []⟩).store.sections =
          (parse_fb2_content roots emptyStore []).store.sections := by
        show (chunkAllSections tok minCS maxCS ov
          (parse_fb2_content roots emptyStore []).store).sections = _
        exact chunkAllSections_sections _ _ _ _ _
      rw [hsec]
      exact hstored)
  show sectionCount (chunkAllSections tok minCS maxCS ov
    (parse_fb2_content roots
      (pipelineOnce tok minCS maxCS ov roots ⟨emptyStore, []⟩).store
      (pipelineOnce tok minCS maxCS ov roots ⟨emptyStore, []⟩).fsPaths).store) = _
  unfold sectionCount
  rw [chunkAllSections_sections]
  show ((extractChildren roots []
    ⟨(pipelineOnce tok minCS maxCS ov roots ⟨emptyStore, []⟩).store,
     (pipelineOnce tok minCS maxCS ov roots ⟨emptyStore, []⟩).fsPaths,
     maxParseIdx (pipelineOnce tok minCS maxCS ov roots ⟨emptyStore, []⟩).store.sections + 1⟩).store.sections).length = _
  rw [hskip]

/-- Witness for the amended C4 at the one-section document of the
counterexample: the section count stays 1 across the rerun, and re-chunking
a section holding one stored entry with one new chunk stores two entries. -/
theorem c4_amended_witness :
    sectionCount (pipelineOnce (fun s => if s = [] then [] else [s]) 0 100 1
      [FBTree.sec (some (chars "T")) (chars "Hello.") []]
      (pipelineOnce (fun s => if s = [] then [] else [s]) 0 100 1
        [FBTree.sec (some (chars "T")) (chars "Hello.") []] ⟨emptyStore, []⟩)).store =
      sectionCount (pipelineOnce (fun s => if s = [] then [] else [s]) 0 100 1
        [FBTree.sec (some (chars "T")) (chars "Hello.") []] ⟨emptyStore, []⟩).store ∧
    (buildChunksMeta [(chars "0", ⟨0, 6, 0, 6⟩)] [(chars "Hello.", 0, 6)]).length =
      [(chars "0", (⟨0, 6, 0, 6⟩ : ChunkMeta))].length + [(chars "Hello.", (0 : Int), (6 : Int))].length :=
  c4_amended (fun s => if s = [] then [] else [s]) 0 100 1
    [FBTree.sec (some (chars "T")) (chars "Hello.") []]
    [(chars "0", ⟨0, 6, 0, 6⟩)] [(chars "Hello.", 0, 6)] (by decide)

end BReader
